import Mathlib

/- Verification development for the APN-Repository C sources
   (check_lin_eq_2x_uniform_3to1.c, invariants_computations.cpp,
   spectra_computations.c).  Every definition below is a shallow embedding of
   the corresponding C/C++ function: dense arrays become `List ℕ` or `ℕ → ℕ`
   lookup functions, in-place mutation becomes explicit state passing, and the
   machine integers (unsigned long / uint32_t, all of which stay below 2^21
   in the supported dimension range) become `ℕ`. -/

namespace APN

/-! ## Shared helper: histogram built by repeated increments.

Both `compute_k_to_1` (invariants_computations.cpp) and the spectra code
build frequency tables by walking a list and executing `freq[v]++`.  We embed
that idiom once and relate it to `List.count`. -/

def histFrom (h : ℕ → ℕ) (l : List ℕ) : ℕ → ℕ :=
  l.foldl (fun h v => Function.update h v (h v + 1)) h

def hist (l : List ℕ) : ℕ → ℕ := histFrom (fun _ => 0) l

theorem histFrom_apply (l : List ℕ) (h : ℕ → ℕ) (c : ℕ) :
    histFrom h l c = h c + l.count c := by
  induction l generalizing h with
  | nil => simp [histFrom]
  | cons v t ih =>
    simp only [histFrom, List.foldl_cons] at *
    rw [ih, List.count_cons]
    by_cases hv : v = c
    · subst hv; simp; omega
    · rw [Function.update_noteq (Ne.symm hv)]
      simp [hv]

theorem hist_apply (l : List ℕ) (c : ℕ) : hist l c = l.count c := by
  simpa using histFrom_apply l (fun _ => 0) c

/-! ## check_lin_eq_2x_uniform_3to1.c : finite-field helpers

`get_primitive_polynomial` (lines 30-50): the static table `pps[]`, indexed
by `dimension - 2`, with 0 returned outside the range [2, 50]. -/

def pps : List ℕ :=
  [7, 11, 19, 37, 91,
   131, 285, 529, 1135, 2053,
   4331, 8219, 16553, 32821, 65581,
   131081, 267267, 524327, 1050355, 2097253,
   4202337, 8388641, 16901801, 33554757, 67126739,
   134223533, 268443877, 536870917, 1073948847, 2147483657,
   4295000729, 8589950281, 17179974135, 34359741605, 68733788515,
   137438953535, 274877925159, 549755854565, 1099522486571, 2199023255561,
   4399239010919, 8796093022297, 17592203542555, 35184373323841, 70368755859457,
   140737488355361, 281475018792329, 562949953422687, 1125900847118165]

def get_primitive_polynomial (dimension : ℕ) : ℕ :=
  if dimension < 2 ∨ 50 < dimension then 0
  else pps.getD (dimension - 2) 0

/-- `ff_multiply` (lines 57-76): Russian-peasant multiplication in
GF(2^dimension) with reduction polynomial bitmask `pp`.  The C loop runs while
both `a` and `b` are nonzero and halves `b` each round, so `b` rounds of
fuel always suffice; the fuel only makes the recursion structural (and hence
reducible by the kernel). -/
def ff_multiply_go (pp dimension : ℕ) : ℕ → ℕ → ℕ → ℕ → ℕ
  | 0, _, _, acc => acc
  | fuel + 1, a, b, acc =>
    if a = 0 ∨ b = 0 then acc
    else
      ff_multiply_go pp dimension fuel
        (if a &&& (1 <<< (dimension - 1)) ≠ 0 then (a <<< 1) ^^^ pp else a <<< 1)
        (b >>> 1)
        (if b &&& 1 ≠ 0 then acc ^^^ a else acc)

def ff_multiply (a b pp : ℕ) (dimension : ℕ) : ℕ :=
  ff_multiply_go pp dimension b a b 0

/-- `get_beta` (lines 82-101): hard-coded β values for even n in [4, 20]. -/
def get_beta (n : ℕ) : ℕ :=
  if n < 4 ∨ 20 < n ∨ n % 2 ≠ 0 then 0
  else [6, 14, 214, 42, 3363, 16363, 44234, 245434, 476308].getD ((n - 4) / 2) 0

/-! ## invariants_computations.cpp : compute_k_to_1 (lines 172-224)

The C++ walks the LUT once building `freq[outv]++` and aborting with -1 on
the first out-of-range output; since that abort value does not depend on
where the abort happens, we test the range condition up front.  Then
`freq[0] == 1` is required, `k` is the frequency of the first attained
nonzero output, and all attained nonzero outputs must share it. -/

def compute_k_to_1 (n : ℕ) (F : ℕ → ℕ) : ℤ :=
  if n = 0 then (if F 0 = 0 then 1 else -1)
  else
    let sz := 2 ^ n
    if (List.range sz).all (fun x => decide (F x < sz)) then
      let freq : ℕ → ℕ := hist ((List.range sz).map F)
      if freq 0 ≠ 1 then -1
      else
        match (List.range' 1 (sz - 1)).find? (fun v => decide (0 < freq v)) with
        | none => -1
        | some v₀ =>
          let k := freq v₀
          if (List.range' 1 (sz - 1)).all
              (fun v => decide (freq v = 0) || decide (freq v = k)) then
            (k : ℤ)
          else -1
    else -1

/-- The truth table F(0) = 1, F(1) = 0 of dimension 1: a bijection that does
not fix 0. -/
def ttSwap : ℕ → ℕ := fun x => if x = 0 then 1 else 0

/-! ## invariants_computations.cpp : compute_anf_bool_inplace (lines 237-247)

The C++ runs, for each step s = 1, 2, 4, ..., < 2^n, an in-place pass
`f[j] ^= f[j ^ s]` over all j with bit s set.  Inside one pass the cell read,
`j ^ s`, has bit s clear and is therefore never written by that same pass, so
the sequential in-place loop is embedded literally as a fold of updates. -/

def compute_anf_step (sz s : ℕ) (f : ℕ → Bool) : ℕ → Bool :=
  (List.range sz).foldl
    (fun g j =>
      if j &&& s ≠ 0 then Function.update g j (Bool.xor (g j) (g (j ^^^ s))) else g) f

def compute_anf_bool_inplace (n : ℕ) (f : ℕ → Bool) : ℕ → Bool :=
  (List.range n).foldl (fun g i => compute_anf_step (2 ^ n) (2 ^ i) g) f

/-- One parallel butterfly stage; used to reason about `compute_anf_step`. -/
def anfStagePar (s : ℕ) (f : ℕ → Bool) : ℕ → Bool :=
  fun j => if j &&& s ≠ 0 then Bool.xor (f j) (f (j ^^^ s)) else f j

def anfStages (n : ℕ) (f : ℕ → Bool) : ℕ → Bool :=
  (List.range n).foldl (fun g i => anfStagePar (2 ^ i) g) f

theorem and_two_pow_cases (j i : ℕ) : j &&& 2 ^ i = 0 ∨ j &&& 2 ^ i = 2 ^ i := by
  rw [Nat.and_two_pow]
  cases j.testBit i <;> simp

theorem xor_and_self_eq_zero {j i : ℕ} (h : j &&& 2 ^ i ≠ 0) :
    (j ^^^ 2 ^ i) &&& 2 ^ i = 0 := by
  rw [Nat.and_xor_distrib_right]
  rcases and_two_pow_cases j i with h0 | h1
  · exact absurd h0 h
  · rw [h1, Nat.and_self, Nat.xor_self]

theorem compute_anf_step_go (i c : ℕ) (f : ℕ → Bool) (j : ℕ) :
    (List.range c).foldl
      (fun g j =>
        if j &&& 2 ^ i ≠ 0 then Function.update g j (Bool.xor (g j) (g (j ^^^ 2 ^ i))) else g)
      f j
    = if j &&& 2 ^ i ≠ 0 ∧ j < c then Bool.xor (f j) (f (j ^^^ 2 ^ i)) else f j := by
  induction c generalizing j with
  | zero => simp
  | succ c ih =>
    simp only [List.range_succ, List.foldl_append, List.foldl_cons, List.foldl_nil]
    by_cases hc : c &&& 2 ^ i ≠ 0
    · rw [if_pos hc]
      by_cases hj : j = c
      · subst hj
        rw [Function.update_same, ih, ih]
        have h2 : (j ^^^ 2 ^ i) &&& 2 ^ i = 0 := xor_and_self_eq_zero hc
        rw [if_neg (fun h => absurd h.2 (Nat.lt_irrefl j)),
          if_neg (fun h => absurd h2 h.1),
          if_pos ⟨hc, Nat.lt_succ_self j⟩]
      · rw [Function.update_noteq hj, ih]
        have hlt : (j < c) = (j < c + 1) := by
          apply propext
          constructor <;> intro h <;> omega
        simp only [hlt]
    · rw [if_neg hc, ih]
      by_cases hj : j = c
      · subst hj
        simp [hc]
      · have hlt : (j < c) = (j < c + 1) := by
          apply propext
          constructor <;> intro h <;> omega
        simp only [hlt]

theorem compute_anf_step_apply (sz i : ℕ) (f : ℕ → Bool) (j : ℕ) :
    compute_anf_step sz (2 ^ i) f j
    = if j &&& 2 ^ i ≠ 0 ∧ j < sz then Bool.xor (f j) (f (j ^^^ 2 ^ i)) else f j :=
  compute_anf_step_go i sz f j

theorem anfStagePar_involutive (i : ℕ) (f : ℕ → Bool) (j : ℕ) :
    anfStagePar (2 ^ i) (anfStagePar (2 ^ i) f) j = f j := by
  unfold anfStagePar
  by_cases hj : j &&& 2 ^ i ≠ 0
  · have h2 : (j ^^^ 2 ^ i) &&& 2 ^ i = 0 := xor_and_self_eq_zero hj
    simp only [hj, if_true, h2, ne_eq, not_true_eq_false, if_false, not_false_eq_true,
      Nat.xor_cancel_right]
    cases f j <;> cases f (j ^^^ 2 ^ i) <;> rfl
  · simp [hj]

theorem xor_preserves_other_bit {j i i' : ℕ} (hne : i ≠ i') :
    (j ^^^ 2 ^ i) &&& 2 ^ i' = j &&& 2 ^ i' := by
  have hz : 2 ^ i &&& 2 ^ i' = 0 := by
    rw [Nat.and_two_pow, Nat.testBit_two_pow_of_ne hne]
    simp
  rw [Nat.and_xor_distrib_right, hz, Nat.xor_zero]

theorem anfStagePar_comm (i i' : ℕ) (hne : i ≠ i') (f : ℕ → Bool) (j : ℕ) :
    anfStagePar (2 ^ i) (anfStagePar (2 ^ i') f) j
    = anfStagePar (2 ^ i') (anfStagePar (2 ^ i) f) j := by
  unfold anfStagePar
  have hii' : (j ^^^ 2 ^ i) &&& 2 ^ i' = j &&& 2 ^ i' := xor_preserves_other_bit hne
  have hi'i : (j ^^^ 2 ^ i') &&& 2 ^ i = j &&& 2 ^ i := xor_preserves_other_bit (Ne.symm hne)
  have hidx : j ^^^ 2 ^ i ^^^ 2 ^ i' = j ^^^ 2 ^ i' ^^^ 2 ^ i := by
    rw [Nat.xor_assoc, Nat.xor_assoc, Nat.xor_comm (2 ^ i)]
  by_cases hb : j &&& 2 ^ i ≠ 0 <;> by_cases hb' : j &&& 2 ^ i' ≠ 0
  all_goals
    simp only [hb, hb', hii', hi'i, if_true, if_false, ne_eq, not_false_eq_true,
      not_not, if_pos, if_neg, hidx]
  all_goals
    first
      | rfl
      | (cases f j <;> cases f (j ^^^ 2 ^ i) <;> cases f (j ^^^ 2 ^ i') <;>
          cases f (j ^^^ 2 ^ i' ^^^ 2 ^ i) <;> rfl)

theorem anfStagePar_fold_comm (i : ℕ) (l : List ℕ) (hl : ∀ i' ∈ l, i' ≠ i)
    (f : ℕ → Bool) (j : ℕ) :
    anfStagePar (2 ^ i) (l.foldl (fun g i' => anfStagePar (2 ^ i') g) f) j
    = l.foldl (fun g i' => anfStagePar (2 ^ i') g) (anfStagePar (2 ^ i) f) j := by
  induction l generalizing f j with
  | nil => simp
  | cons i' t ih =>
    simp only [List.foldl_cons]
    have hcomm : ∀ k, anfStagePar (2 ^ i) (anfStagePar (2 ^ i') f) k
        = anfStagePar (2 ^ i') (anfStagePar (2 ^ i) f) k := by
      intro k
      exact (anfStagePar_comm i' i (hl i' (by simp)) f k).symm
    have hfun : anfStagePar (2 ^ i) (anfStagePar (2 ^ i') f)
        = anfStagePar (2 ^ i') (anfStagePar (2 ^ i) f) := funext hcomm
    rw [ih (fun a ha => hl a (by simp [ha])) (anfStagePar (2 ^ i') f) j, hfun]

theorem anf_fold_involution (l : List ℕ) (hnd : l.Nodup) (f : ℕ → Bool) (j : ℕ) :
    l.foldl (fun g i => anfStagePar (2 ^ i) g)
      (l.foldl (fun g i => anfStagePar (2 ^ i) g) f) j = f j := by
  induction l generalizing f j with
  | nil => simp
  | cons i t ih =>
    simp only [List.foldl_cons]
    have hni : ∀ i' ∈ t, i' ≠ i := by
      intro i' hmem
      intro heq
      subst heq
      exact (List.nodup_cons.mp hnd).1 hmem
    have h1 : anfStagePar (2 ^ i) (t.foldl (fun g i' => anfStagePar (2 ^ i') g)
        (anfStagePar (2 ^ i) f))
        = t.foldl (fun g i' => anfStagePar (2 ^ i') g)
            (anfStagePar (2 ^ i) (anfStagePar (2 ^ i) f)) :=
      funext (fun k => anfStagePar_fold_comm i t hni (anfStagePar (2 ^ i) f) k)
    rw [h1]
    have h2 : anfStagePar (2 ^ i) (anfStagePar (2 ^ i) f) = f :=
      funext (fun k => anfStagePar_involutive i f k)
    rw [h2]
    exact ih (List.nodup_cons.mp hnd).2 f j

theorem fold_step_agree (n : ℕ) (l : List ℕ) (hl : ∀ i ∈ l, i < n)
    (f g : ℕ → Bool) (hfg : ∀ j, j < 2 ^ n → f j = g j) :
    ∀ j, j < 2 ^ n →
      l.foldl (fun h i => compute_anf_step (2 ^ n) (2 ^ i) h) f j
      = l.foldl (fun h i => anfStagePar (2 ^ i) h) g j := by
  induction l generalizing f g with
  | nil => exact hfg
  | cons i t ih =>
    intro j hj
    simp only [List.foldl_cons]
    refine ih (fun a ha => hl a (by simp [ha])) _ _ ?_ j hj
    intro k hk
    rw [compute_anf_step_apply, anfStagePar]
    have hk2 : k ^^^ 2 ^ i < 2 ^ n :=
      Nat.xor_lt_two_pow hk (Nat.pow_lt_pow_right (by omega) (hl i (by simp)))
    by_cases hb : k &&& 2 ^ i ≠ 0
    · rw [if_pos ⟨hb, hk⟩, if_pos hb, hfg k hk, hfg _ hk2]
    · rw [if_neg (fun h => hb h.1), if_neg hb]
      exact hfg k hk

theorem compute_anf_step_high (sz i j : ℕ) (f : ℕ → Bool) (hj : sz ≤ j) :
    compute_anf_step sz (2 ^ i) f j = f j := by
  rw [compute_anf_step_apply]
  have : ¬ (j < sz) := by omega
  simp [this]

theorem compute_anf_high (n j : ℕ) (f : ℕ → Bool) (hj : 2 ^ n ≤ j) :
    compute_anf_bool_inplace n f j = f j := by
  unfold compute_anf_bool_inplace
  induction (List.range n) generalizing f with
  | nil => simp
  | cons i t ih =>
    simp only [List.foldl_cons]
    rw [ih, compute_anf_step_high _ _ _ _ hj]

/-- C8 (confirmed): applying the in-place ANF (Moebius) transform twice to
any Boolean vector of length 2^n restores the original vector (indices at or
beyond 2^n are never touched, so the identity in fact holds at every index). -/
theorem compute_anf_bool_inplace_involutive (n : ℕ) (f : ℕ → Bool) (j : ℕ) :
    compute_anf_bool_inplace n (compute_anf_bool_inplace n f) j = f j := by
  by_cases hj : j < 2 ^ n
  · have h1 : ∀ k, k < 2 ^ n →
        compute_anf_bool_inplace n f k = anfStages n f k := by
      intro k hk
      exact fold_step_agree n (List.range n) (fun i hi => List.mem_range.mp hi)
        f f (fun _ _ => rfl) k hk
    have h2 : compute_anf_bool_inplace n (compute_anf_bool_inplace n f) j
        = anfStages n (anfStages n f) j :=
      fold_step_agree n (List.range n) (fun i hi => List.mem_range.mp hi)
        (compute_anf_bool_inplace n f) (anfStages n f) h1 j hj
    rw [h2]
    exact anf_fold_involution (List.range n) (List.nodup_range n) f j
  · rw [compute_anf_high n j _ (by omega), compute_anf_high n j f (by omega)]

/-! ## spectra_computations.c : dot_bits (lines 21-31) and
compute_orthoderivative (lines 38-81). -/

/-- `dot_bits`: bitwise-AND-then-parity inner product, accumulated while
either argument is nonzero. -/
def dot_bits_go : ℕ → ℕ → ℕ → Bool
  | 0, _, _ => false
  | fuel + 1, a, b =>
    if a = 0 ∧ b = 0 then false
    else Bool.xor (decide (a &&& 1 = 1) && decide (b &&& 1 = 1))
           (dot_bits_go fuel (a >>> 1) (b >>> 1))

/-- The loop runs while `a` or `b` is nonzero and halves both each round, so
`a + b` rounds of fuel always suffice; the fuel only makes the recursion
structural (and hence reducible by the kernel). -/
def dot_bits (a b : ℕ) : Bool := dot_bits_go (a + b) a b

/-- The inner expression `F(0) ^ F(a) ^ F(x) ^ F(x ^ a)` of the
orthoderivative loop. -/
def derivative (F : ℕ → ℕ) (a x : ℕ) : ℕ :=
  F 0 ^^^ F a ^^^ F x ^^^ F (x ^^^ a)

/-- The inner `is_orthogonal` test of `compute_orthoderivative` as a Boolean
predicate of the candidate `possible_value`. -/
def odPred (n : ℕ) (F : ℕ → ℕ) (a : ℕ) : ℕ → Bool :=
  fun v => (List.range (2 ^ n)).all (fun x => ! dot_bits v (derivative F a x))

/-- The inner search of `compute_orthoderivative`: the first
`possible_value` in [1, 2^n) orthogonal to every derivative, or 0. -/
def od_entry (n : ℕ) (F : ℕ → ℕ) (a : ℕ) : ℕ :=
  ((List.range' 1 (2 ^ n - 1)).find? (odPred n F a)).getD 0

def compute_orthoderivative (n : ℕ) (F : ℕ → ℕ) : ℕ → ℕ :=
  fun a => if a = 0 ∨ 2 ^ n ≤ a then 0 else od_entry n F a

/-- `possible_value` is orthogonal to every derivative in direction `a`. -/
def Orth (n : ℕ) (F : ℕ → ℕ) (a v : ℕ) : Prop :=
  ∀ x, x < 2 ^ n → dot_bits v (derivative F a x) = false

instance (n : ℕ) (F : ℕ → ℕ) (a v : ℕ) : Decidable (Orth n F a v) :=
  inferInstanceAs (Decidable (∀ x, x < 2 ^ n → dot_bits v (derivative F a x) = false))

theorem find?_range'_min {p : ℕ → Bool} {v : ℕ} {s k : ℕ}
    (h : (List.range' s k).find? p = some v) :
    ∀ w, s ≤ w → w < s + k → p w = true → v ≤ w := by
  induction k generalizing s with
  | zero => simp at h
  | succ k ih =>
    intro w hws hwk hpw
    rw [List.range'_succ] at h
    by_cases hp : p s = true
    · rw [List.find?_cons_of_pos _ hp] at h
      have hv : s = v := Option.some.inj h
      omega
    · rw [List.find?_cons_of_neg _ hp] at h
      have hwne : w ≠ s := fun he => hp (he ▸ hpw)
      exact ih h w (by omega) (by omega) hpw

theorem orth_of_all {n : ℕ} {F : ℕ → ℕ} {a v : ℕ} :
    (odPred n F a v = true) ↔ Orth n F a v := by
  rw [odPred, List.all_eq_true]
  constructor
  · intro h x hx
    have := h x (List.mem_range.mpr hx)
    simpa using this
  · intro h x hx
    simpa using h x (List.mem_range.mp hx)

/-- C7 (confirmed): the orthoderivative table has od(0) = 0, and for every
a in (0, 2^n), od(a) is the least value in [1, 2^n) whose
AND-then-parity inner product with every derivative
F(0) ^ F(a) ^ F(x) ^ F(x ^ a) vanishes, or 0 when no such value exists. -/
theorem compute_orthoderivative_spec (n : ℕ) (F : ℕ → ℕ) :
    compute_orthoderivative n F 0 = 0 ∧
    ∀ a, 0 < a → a < 2 ^ n →
      ((∃ v, 0 < v ∧ v < 2 ^ n ∧ Orth n F a v) →
        0 < compute_orthoderivative n F a ∧ compute_orthoderivative n F a < 2 ^ n ∧
        Orth n F a (compute_orthoderivative n F a) ∧
        ∀ v, v < 2 ^ n → 0 < v → Orth n F a v →
          compute_orthoderivative n F a ≤ v) ∧
      ((¬ ∃ v, 0 < v ∧ v < 2 ^ n ∧ Orth n F a v) →
        compute_orthoderivative n F a = 0) := by
  constructor
  · simp [compute_orthoderivative]
  intro a ha haN
  have hform : compute_orthoderivative n F a = od_entry n F a := by
    unfold compute_orthoderivative
    rw [if_neg]
    push_neg
    omega
  constructor
  · rintro ⟨v, hv0, hvN, hvOrth⟩
    have hpv : odPred n F a v = true := orth_of_all.mpr hvOrth
    obtain ⟨w, hw⟩ : ∃ w, (List.range' 1 (2 ^ n - 1)).find? (odPred n F a) = some w := by
      cases hfind : (List.range' 1 (2 ^ n - 1)).find? (odPred n F a) with
      | none =>
        exfalso
        have hnot := List.find?_eq_none.mp hfind v ?_
        · exact hnot hpv
        · rw [List.mem_range'_1]
          omega
      | some w => exact ⟨w, rfl⟩
    have hmem : w ∈ List.range' 1 (2 ^ n - 1) := List.mem_of_find?_eq_some hw
    rw [List.mem_range'_1] at hmem
    have hpw : odPred n F a w = true := List.find?_some hw
    have hwOrth : Orth n F a w := orth_of_all.mp hpw
    have hod : od_entry n F a = w := by
      unfold od_entry
      rw [hw]
      rfl
    rw [hform, hod]
    refine ⟨by omega, by omega, hwOrth, ?_⟩
    intro u huN hu0 huOrth
    exact find?_range'_min hw u (by omega) (by omega) (orth_of_all.mpr huOrth)
  · intro hno
    rw [hform]
    unfold od_entry
    cases hfind : (List.range' 1 (2 ^ n - 1)).find? (odPred n F a) with
    | none => rfl
    | some w =>
      exfalso
      have hmem : w ∈ List.range' 1 (2 ^ n - 1) := List.mem_of_find?_eq_some hfind
      rw [List.mem_range'_1] at hmem
      have hpw : odPred n F a w = true := List.find?_some hfind
      exact hno ⟨w, by omega, by omega, orth_of_all.mp hpw⟩

/-- The identity truth table, used to instantiate theorems. -/
def idF : ℕ → ℕ := fun x => x

/-- C7 witness: instantiation at the identity function in dimension 1. -/
theorem compute_orthoderivative_spec_witness :
    compute_orthoderivative 1 idF 0 = 0 ∧
    (0 < compute_orthoderivative 1 idF 1 ∧ compute_orthoderivative 1 idF 1 < 2 ^ 1 ∧
     Orth 1 idF 1 (compute_orthoderivative 1 idF 1) ∧
     ∀ v, v < 2 ^ 1 → 0 < v → Orth 1 idF 1 v →
       compute_orthoderivative 1 idF 1 ≤ v) :=
  ⟨(compute_orthoderivative_spec 1 idF).1,
   ((compute_orthoderivative_spec 1 idF).2 1 (by decide) (by decide)).1
     ⟨1, by decide, by decide, by decide⟩⟩

/-! ## spectra_computations.c : compute_differential_spectrum (lines 86-122)
and compute_extended_walsh_spectrum (lines 125-161).

The caller's `spectrum_counts` array of length 2^n + 1 becomes a `ℕ → ℕ`
histogram; the per-`a` `solutions` array and its tally loop are embedded
literally.  A separate counter tracks how often the out-of-range warning
branch of the ODWS loop executes. -/

def odds_diffs (n : ℕ) (F : ℕ → ℕ) (a : ℕ) : List ℕ :=
  (List.range (2 ^ n)).map
    (fun x => compute_orthoderivative n F x ^^^ compute_orthoderivative n F (x ^^^ a))

def odds_solutions (n : ℕ) (F : ℕ → ℕ) (a : ℕ) : ℕ → ℕ := hist (odds_diffs n F a)

def odds_freqs (n : ℕ) (F : ℕ → ℕ) (a : ℕ) : List ℕ :=
  (List.range (2 ^ n)).map (fun c => odds_solutions n F a c)

def compute_differential_spectrum (n : ℕ) (F : ℕ → ℕ) : ℕ → ℕ :=
  (List.range' 1 (2 ^ n - 1)).foldl
    (fun spec a =>
      (odds_freqs n F a).foldl
        (fun sp freq => if freq ≤ 2 ^ n then Function.update sp freq (sp freq + 1) else sp)
        spec)
    (fun _ => 0)

def walsh_transform (n : ℕ) (F : ℕ → ℕ) (a b : ℕ) : ℤ :=
  (List.range (2 ^ n)).foldl
    (fun sum x =>
      sum + if Bool.xor (dot_bits a x) (dot_bits b (F x)) then -1 else 1) 0

def odws_fold (n : ℕ) (od : ℕ → ℕ) : (ℕ → ℕ) × ℕ :=
  (List.range (2 ^ n)).foldl
    (fun st a =>
      (List.range' 1 (2 ^ n - 1)).foldl
        (fun st b =>
          let abs_wc := (walsh_transform n od a b).natAbs
          if abs_wc ≤ 2 ^ n then (Function.update st.1 abs_wc (st.1 abs_wc + 1), st.2)
          else (st.1, st.2 + 1))
        st)
    ((fun _ => 0), 0)

def compute_extended_walsh_spectrum (n : ℕ) (F : ℕ → ℕ) : ℕ → ℕ :=
  (odws_fold n (compute_orthoderivative n F)).1

def odws_warning_count (n : ℕ) (F : ℕ → ℕ) : ℕ :=
  (odws_fold n (compute_orthoderivative n F)).2

theorem sum_range_count_eq_length (K : ℕ) (l : List ℕ) (h : ∀ v ∈ l, v < K) :
    ∑ c ∈ Finset.range K, l.count c = l.length := by
  induction l with
  | nil => simp
  | cons v t ih =>
    have hsum : ∀ c, (v :: t).count c = t.count c + if v = c then 1 else 0 := by
      intro c
      simp [List.count_cons]
    simp only [hsum]
    rw [Finset.sum_add_distrib, ih (fun w hw => h w (by simp [hw]))]
    have hv : v ∈ Finset.range K := Finset.mem_range.mpr (h v (by simp))
    rw [Finset.sum_ite_eq (Finset.range K) v (fun _ => 1), if_pos hv]
    simp

theorem sum_range_mul_count_eq_sum (K : ℕ) (l : List ℕ) (h : ∀ v ∈ l, v < K) :
    ∑ m ∈ Finset.range K, m * l.count m = l.sum := by
  induction l with
  | nil => simp
  | cons v t ih =>
    have hsum : ∀ c, (v :: t).count c = t.count c + if v = c then 1 else 0 := by
      intro c
      simp [List.count_cons]
    simp only [hsum, Nat.mul_add, mul_ite, Nat.mul_one, Nat.mul_zero]
    rw [Finset.sum_add_distrib, ih (fun w hw => h w (by simp [hw]))]
    have hv : v ∈ Finset.range K := Finset.mem_range.mpr (h v (by simp))
    rw [Finset.sum_ite_eq (Finset.range K) v (fun m => m), if_pos hv]
    simp [Nat.add_comm]

theorem histFrom_append (h : ℕ → ℕ) (l1 l2 : List ℕ) :
    histFrom h (l1 ++ l2) = histFrom (histFrom h l1) l2 := by
  simp [histFrom, List.foldl_append]

theorem foldl_guard_eq_histFrom (K : ℕ) (l : List ℕ) (h : ∀ v ∈ l, v ≤ K) (sp : ℕ → ℕ) :
    l.foldl (fun sp freq => if freq ≤ K then Function.update sp freq (sp freq + 1) else sp) sp
      = histFrom sp l := by
  induction l generalizing sp with
  | nil => rfl
  | cons v t ih =>
    simp only [List.foldl_cons, histFrom]
    rw [if_pos (h v (by simp))]
    exact ih (fun w hw => h w (by simp [hw])) _

theorem spec_fold_eq_hist (K : ℕ) (freqs : ℕ → List ℕ) (as : List ℕ)
    (hb : ∀ a ∈ as, ∀ v ∈ freqs a, v ≤ K) (sp : ℕ → ℕ) :
    as.foldl (fun spec a => (freqs a).foldl
      (fun sp f => if f ≤ K then Function.update sp f (sp f + 1) else sp) spec) sp
    = histFrom sp (as.flatMap freqs) := by
  induction as generalizing sp with
  | nil => rfl
  | cons a t ih =>
    have hfm : (a :: t).flatMap freqs = freqs a ++ t.flatMap freqs := rfl
    rw [List.foldl_cons, hfm, histFrom_append,
      foldl_guard_eq_histFrom K _ (hb a (by simp))]
    exact ih (fun a' ha' => hb a' (by simp [ha'])) _

theorem sum_flatMap (f : ℕ → List ℕ) (as : List ℕ) :
    (as.flatMap f).sum = (as.map (fun a => (f a).sum)).sum := by
  induction as with
  | nil => rfl
  | cons a t ih =>
    have hfm : (a :: t).flatMap f = f a ++ t.flatMap f := rfl
    rw [hfm, List.sum_append, ih, List.map_cons, List.sum_cons]

theorem length_flatMap_const (f : ℕ → List ℕ) (as : List ℕ) (k : ℕ)
    (h : ∀ a ∈ as, (f a).length = k) : (as.flatMap f).length = as.length * k := by
  induction as with
  | nil => simp
  | cons a t ih =>
    have hfm : (a :: t).flatMap f = f a ++ t.flatMap f := rfl
    rw [hfm, List.length_append, h a (by simp), ih (fun a' ha' => h a' (by simp [ha']))]
    simp [Nat.succ_mul, Nat.add_comm]

theorem compute_orthoderivative_lt (n : ℕ) (F : ℕ → ℕ) (a : ℕ) :
    compute_orthoderivative n F a < 2 ^ n := by
  have h1 : 1 ≤ 2 ^ n := Nat.one_le_two_pow
  unfold compute_orthoderivative
  by_cases hz : a = 0 ∨ 2 ^ n ≤ a
  · rw [if_pos hz]
    omega
  · rw [if_neg hz]
    unfold od_entry
    cases hfind : (List.range' 1 (2 ^ n - 1)).find? (odPred n F a) with
    | none =>
      simp only [Option.getD_none]
      omega
    | some w =>
      have hmem : w ∈ List.range' 1 (2 ^ n - 1) := List.mem_of_find?_eq_some hfind
      rw [List.mem_range'_1] at hmem
      simp only [Option.getD_some]
      omega

theorem odds_diffs_lt (n : ℕ) (F : ℕ → ℕ) (a : ℕ) :
    ∀ v ∈ odds_diffs n F a, v < 2 ^ n := by
  intro v hv
  obtain ⟨x, _, hx⟩ := List.mem_map.mp hv
  rw [← hx]
  exact Nat.xor_lt_two_pow (compute_orthoderivative_lt n F x)
    (compute_orthoderivative_lt n F (x ^^^ a))

theorem odds_freqs_le (n : ℕ) (F : ℕ → ℕ) (a : ℕ) :
    ∀ v ∈ odds_freqs n F a, v ≤ 2 ^ n := by
  intro v hv
  obtain ⟨c, _, hc⟩ := List.mem_map.mp hv
  rw [← hc]
  unfold odds_solutions
  rw [hist_apply]
  calc (odds_diffs n F a).count c ≤ (odds_diffs n F a).length :=
        List.count_le_length c (odds_diffs n F a)
  _ = 2 ^ n := by simp [odds_diffs]

theorem odds_freqs_sum (n : ℕ) (F : ℕ → ℕ) (a : ℕ) :
    (odds_freqs n F a).sum = 2 ^ n := by
  unfold odds_freqs
  have hform : ((List.range (2 ^ n)).map (fun c => odds_solutions n F a c)).sum
      = ∑ c ∈ Finset.range (2 ^ n), odds_solutions n F a c := rfl
  rw [hform]
  have hcount : ∀ c, odds_solutions n F a c = (odds_diffs n F a).count c := by
    intro c
    unfold odds_solutions
    exact hist_apply _ c
  simp only [hcount]
  rw [sum_range_count_eq_length (2 ^ n) _ (odds_diffs_lt n F a)]
  simp [odds_diffs]

/-- C9 (confirmed): after `compute_differential_spectrum` fills the
length-(2^n + 1) histogram, the weighted sum of multiplicities equals
2^n * (2^n - 1), the number of pairs (a, x) with a nonzero. -/
theorem compute_differential_spectrum_sum (n : ℕ) (F : ℕ → ℕ) :
    ∑ m ∈ Finset.range (2 ^ n + 1), m * compute_differential_spectrum n F m
      = 2 ^ n * (2 ^ n - 1) := by
  unfold compute_differential_spectrum
  rw [spec_fold_eq_hist (2 ^ n) (odds_freqs n F) _ (fun a _ => odds_freqs_le n F a)]
  have hbig : ∀ v ∈ (List.range' 1 (2 ^ n - 1)).flatMap (odds_freqs n F), v < 2 ^ n + 1 := by
    intro v hv
    obtain ⟨a, ha, hva⟩ := List.mem_flatMap.mp hv
    have := odds_freqs_le n F a v hva
    omega
  have hc : ∀ m, histFrom (fun _ => 0) ((List.range' 1 (2 ^ n - 1)).flatMap (odds_freqs n F)) m
      = ((List.range' 1 (2 ^ n - 1)).flatMap (odds_freqs n F)).count m :=
    fun m => hist_apply _ m
  simp only [hc]
  rw [sum_range_mul_count_eq_sum _ _ hbig, sum_flatMap]
  have hmap : (List.range' 1 (2 ^ n - 1)).map (fun a => (odds_freqs n F a).sum)
      = (List.range' 1 (2 ^ n - 1)).map (fun _ => 2 ^ n) :=
    List.map_congr_left (fun a _ => odds_freqs_sum n F a)
  rw [hmap]
  have hconst : ((List.range' 1 (2 ^ n - 1)).map (fun _ => 2 ^ n)).sum
      = (2 ^ n - 1) * 2 ^ n := by
    rw [List.map_const']
    simp [List.sum_replicate]
  rw [hconst, Nat.mul_comm]

theorem walsh_foldl_natAbs_le (P : ℕ → Bool) (l : List ℕ) :
    ∀ c : ℤ, (l.foldl (fun sum x => sum + if P x then -1 else 1) c).natAbs
      ≤ c.natAbs + l.length := by
  induction l with
  | nil => intro c; simp
  | cons x t ih =>
    intro c
    rw [List.foldl_cons]
    calc (t.foldl (fun sum x => sum + if P x then -1 else 1)
            (c + if P x then -1 else 1)).natAbs
        ≤ (c + if P x then -1 else 1).natAbs + t.length := ih _
      _ ≤ c.natAbs + (if P x then (-1 : ℤ) else 1).natAbs + t.length := by
          have := Int.natAbs_add_le c (if P x then -1 else 1)
          omega
      _ ≤ c.natAbs + (x :: t).length := by
          have hone : (if P x then (-1 : ℤ) else 1).natAbs = 1 := by
            by_cases hP : P x <;> simp [hP]
          rw [hone]
          simp only [List.length_cons]
          omega

theorem walsh_transform_natAbs_le (n : ℕ) (G : ℕ → ℕ) (a b : ℕ) :
    (walsh_transform n G a b).natAbs ≤ 2 ^ n := by
  unfold walsh_transform
  have := walsh_foldl_natAbs_le (fun x => Bool.xor (dot_bits a x) (dot_bits b (G x)))
    (List.range (2 ^ n)) 0
  simpa using this

theorem odws_inner_go (n : ℕ) (od : ℕ → ℕ) (a : ℕ) (bs : List ℕ) :
    ∀ st : (ℕ → ℕ) × ℕ,
      bs.foldl
        (fun st b =>
          let abs_wc := (walsh_transform n od a b).natAbs
          if abs_wc ≤ 2 ^ n then (Function.update st.1 abs_wc (st.1 abs_wc + 1), st.2)
          else (st.1, st.2 + 1))
        st
      = (histFrom st.1 (bs.map (fun b => (walsh_transform n od a b).natAbs)), st.2) := by
  induction bs with
  | nil => intro st; rfl
  | cons b t ih =>
    intro st
    rw [List.foldl_cons]
    have hguard : (walsh_transform n od a b).natAbs ≤ 2 ^ n :=
      walsh_transform_natAbs_le n od a b
    simp only [hguard, if_pos]
    rw [ih]
    rfl

theorem odws_fold_eq (n : ℕ) (od : ℕ → ℕ) :
    odws_fold n od
    = (hist ((List.range (2 ^ n)).flatMap
        (fun a => (List.range' 1 (2 ^ n - 1)).map
          (fun b => (walsh_transform n od a b).natAbs))), 0) := by
  unfold odws_fold hist
  have hgen : ∀ (as : List ℕ) (st : (ℕ → ℕ) × ℕ),
      as.foldl
        (fun st a =>
          (List.range' 1 (2 ^ n - 1)).foldl
            (fun st b =>
              let abs_wc := (walsh_transform n od a b).natAbs
              if abs_wc ≤ 2 ^ n then (Function.update st.1 abs_wc (st.1 abs_wc + 1), st.2)
              else (st.1, st.2 + 1))
            st)
        st
      = (histFrom st.1 (as.flatMap
          (fun a => (List.range' 1 (2 ^ n - 1)).map
            (fun b => (walsh_transform n od a b).natAbs))), st.2) := by
    intro as
    induction as with
    | nil => intro st; rfl
    | cons a t ih =>
      intro st
      rw [List.foldl_cons, odws_inner_go, ih]
      have hfm : (a :: t).flatMap
          (fun a => (List.range' 1 (2 ^ n - 1)).map
            (fun b => (walsh_transform n od a b).natAbs))
          = (List.range' 1 (2 ^ n - 1)).map (fun b => (walsh_transform n od a b).natAbs)
            ++ t.flatMap (fun a => (List.range' 1 (2 ^ n - 1)).map
                (fun b => (walsh_transform n od a b).natAbs)) := rfl
      rw [hfm, histFrom_append]
  exact hgen _ _

/-- C10 (confirmed): every Walsh coefficient has absolute value at most 2^n,
so the out-of-range warning branch of `compute_extended_walsh_spectrum` never
executes and each of the 2^n * (2^n - 1) pairs (a, b) increments exactly one
histogram bucket. -/
theorem walsh_spectrum_total (n : ℕ) (F : ℕ → ℕ) :
    (∀ G : ℕ → ℕ, ∀ a b : ℕ, (walsh_transform n G a b).natAbs ≤ 2 ^ n) ∧
    odws_warning_count n F = 0 ∧
    ∑ m ∈ Finset.range (2 ^ n + 1), compute_extended_walsh_spectrum n F m
      = 2 ^ n * (2 ^ n - 1) := by
  refine ⟨fun G a b => walsh_transform_natAbs_le n G a b, ?_, ?_⟩
  · unfold odws_warning_count
    rw [odws_fold_eq]
  · unfold compute_extended_walsh_spectrum
    rw [odws_fold_eq]
    have hbig : ∀ v ∈ (List.range (2 ^ n)).flatMap
        (fun a => (List.range' 1 (2 ^ n - 1)).map
          (fun b => (walsh_transform n (compute_orthoderivative n F) a b).natAbs)),
        v < 2 ^ n + 1 := by
      intro v hv
      obtain ⟨a, _, hva⟩ := List.mem_flatMap.mp hv
      obtain ⟨b, _, hvb⟩ := List.mem_map.mp hva
      rw [← hvb]
      have := walsh_transform_natAbs_le n (compute_orthoderivative n F) a b
      omega
    have hc : ∀ m, hist ((List.range (2 ^ n)).flatMap
        (fun a => (List.range' 1 (2 ^ n - 1)).map
          (fun b => (walsh_transform n (compute_orthoderivative n F) a b).natAbs))) m
        = ((List.range (2 ^ n)).flatMap
        (fun a => (List.range' 1 (2 ^ n - 1)).map
          (fun b => (walsh_transform n (compute_orthoderivative n F) a b).natAbs))).count m :=
      fun m => hist_apply _ m
    simp only [hc]
    rw [sum_range_count_eq_length _ _ hbig]
    rw [length_flatMap_const _ _ (2 ^ n - 1) (fun a _ => by simp)]
    simp

/-! ## invariants_computations.cpp : differential_uniformity (lines 124-146)

For each a in [1, 2^n) the C++ zeroes a length-2^n counter buffer, walks all
x incrementing `counts[F(x) ^ F(x ^ a)]`, and keeps the running maximum of
every increment's value; that running maximum is returned. -/

def duInner (n : ℕ) (F : ℕ → ℕ) (a : ℕ) (mx : ℕ) : ℕ :=
  ((List.range (2 ^ n)).foldl
    (fun st x =>
      (Function.update st.1 (F x ^^^ F (x ^^^ a)) (st.1 (F x ^^^ F (x ^^^ a)) + 1),
       max st.2 (st.1 (F x ^^^ F (x ^^^ a)) + 1)))
    ((fun _ => 0), mx)).2

def differential_uniformity (n : ℕ) (F : ℕ → ℕ) : ℕ :=
  (List.range' 1 (2 ^ n - 1)).foldl (fun mx a => duInner n F a mx) 0

/-- The list of output differences F(x) ^ F(x ^ a) for x in [0, 2^n). -/
def du_diffs (n : ℕ) (F : ℕ → ℕ) (a : ℕ) : List ℕ :=
  (List.range (2 ^ n)).map (fun x => F x ^^^ F (x ^^^ a))

theorem duInner_go (l : List ℕ) :
    ∀ (h : ℕ → ℕ) (m : ℕ),
      (l.foldl
        (fun st v => (Function.update st.1 v (st.1 v + 1), max st.2 (st.1 v + 1)))
        (h, m)).2
      = max m (l.toFinset.sup (fun b => histFrom h l b)) := by
  induction l with
  | nil =>
    intro h m
    simp [histFrom]
  | cons v t ih =>
    intro h m
    rw [List.foldl_cons, ih]
    have hH : ∀ b, histFrom h (v :: t) b
        = histFrom (Function.update h v (h v + 1)) t b := fun b => rfl
    simp only [hH, List.toFinset_cons, Finset.sup_insert, sup_eq_max]
    have hHv : histFrom (Function.update h v (h v + 1)) t v = (h v + 1) + t.count v := by
      rw [histFrom_apply, Function.update_same]
    by_cases hvt : v ∈ t
    · have hsup : histFrom (Function.update h v (h v + 1)) t v
          ≤ t.toFinset.sup (fun b => histFrom (Function.update h v (h v + 1)) t b) :=
        Finset.le_sup (List.mem_toFinset.mpr hvt)
      omega
    · have hcount : t.count v = 0 := List.count_eq_zero.mpr hvt
      omega

theorem duInner_eq (n : ℕ) (F : ℕ → ℕ) (a mx : ℕ) :
    duInner n F a mx
    = max mx ((du_diffs n F a).toFinset.sup (fun b => (du_diffs n F a).count b)) := by
  unfold duInner du_diffs
  rw [← List.foldl_map
    (fun x => F x ^^^ F (x ^^^ a))
    (fun st v => (Function.update st.1 v (st.1 v + 1), max st.2 (st.1 v + 1)))]
  rw [duInner_go]
  have hc : ∀ b, histFrom (fun _ => 0)
      ((List.range (2 ^ n)).map (fun x => F x ^^^ F (x ^^^ a))) b
      = ((List.range (2 ^ n)).map (fun x => F x ^^^ F (x ^^^ a))).count b :=
    fun b => hist_apply _ b
  simp only [hc]

theorem count_map_range (N : ℕ) (f : ℕ → ℕ) (b : ℕ) :
    ((List.range N).map f).count b = ((Finset.range N).filter (fun x => f x = b)).card := by
  induction N with
  | zero => simp
  | succ N ih =>
    rw [List.range_succ, List.map_append, List.count_append, ih, Finset.range_succ,
      Finset.filter_insert]
    by_cases hb : f N = b
    · rw [if_pos hb, Finset.card_insert_of_not_mem (by simp)]
      simp [hb]
    · rw [if_neg hb]
      simp [List.count_cons, hb]

theorem du_count_even (n : ℕ) (F : ℕ → ℕ) (a : ℕ) (ha : 0 < a) (haN : a < 2 ^ n)
    (b : ℕ) : Even ((du_diffs n F a).count b) := by
  unfold du_diffs
  rw [count_map_range]
  have hxa : ∀ x : ℕ, x ^^^ a ≠ x := by
    intro x hx
    have h2 := congrArg (fun y => x ^^^ y) hx
    simp only [Nat.xor_cancel_left, Nat.xor_self] at h2
    omega
  set S := (Finset.range (2 ^ n)).filter (fun x => F x ^^^ F (x ^^^ a) = b) with hS
  have hmemS : ∀ x, x ∈ S ↔ x < 2 ^ n ∧ F x ^^^ F (x ^^^ a) = b := by
    intro x
    simp [hS, Finset.mem_filter, Finset.mem_range]
  have hflip : ∀ x ∈ S, x ^^^ a ∈ S := by
    intro x hx
    rw [hmemS] at hx ⊢
    refine ⟨Nat.xor_lt_two_pow hx.1 haN, ?_⟩
    rw [Nat.xor_cancel_right]
    rw [← hx.2, Nat.xor_comm]
  have hA : S.card = (S.filter (fun x => x < x ^^^ a)).card
      + (S.filter (fun x => ¬ x < x ^^^ a)).card :=
    (Finset.filter_card_add_filter_neg_card_eq_card (fun x => x < x ^^^ a)).symm
  have hbij : (S.filter (fun x => x < x ^^^ a)).card
      = (S.filter (fun x => ¬ x < x ^^^ a)).card := by
    refine Finset.card_bij' (fun x _ => x ^^^ a) (fun y _ => y ^^^ a) ?_ ?_ ?_ ?_
    · intro x hx
      dsimp only
      rw [Finset.mem_filter] at hx ⊢
      refine ⟨hflip x hx.1, ?_⟩
      rw [Nat.xor_cancel_right]
      have hlt := hx.2
      omega
    · intro y hy
      dsimp only
      rw [Finset.mem_filter] at hy ⊢
      have hne := hxa y
      refine ⟨hflip y hy.1, ?_⟩
      rw [Nat.xor_cancel_right]
      have hnlt := hy.2
      omega
    · intro x _
      dsimp only
      exact Nat.xor_cancel_right a x
    · intro y _
      dsimp only
      exact Nat.xor_cancel_right a y
  rw [hA, hbij]
  exact even_add_self _

theorem even_sup_of_even (s : Finset ℕ) (f : ℕ → ℕ) (h : ∀ b ∈ s, Even (f b)) :
    Even (s.sup f) := by
  rcases Finset.eq_empty_or_nonempty s with hs | hs
  · subst hs
    simp
  · obtain ⟨b, hb, hsup⟩ := Finset.exists_mem_eq_sup s hs f
    rw [hsup]
    exact h b hb

theorem du_fold_even (n : ℕ) (F : ℕ → ℕ) (as : List ℕ)
    (has : ∀ a ∈ as, 0 < a ∧ a < 2 ^ n) :
    ∀ m, Even m → Even (as.foldl (fun mx a => duInner n F a mx) m) := by
  induction as with
  | nil => intro m hm; exact hm
  | cons a t ih =>
    intro m hm
    rw [List.foldl_cons]
    refine ih (fun a' ha' => has a' (by simp [ha'])) _ ?_
    rw [duInner_eq]
    have heven : Even ((du_diffs n F a).toFinset.sup
        (fun b => (du_diffs n F a).count b)) :=
      even_sup_of_even _ _ (fun b _ =>
        du_count_even n F a (has a (by simp)).1 (has a (by simp)).2 b)
    rcases max_choice m ((du_diffs n F a).toFinset.sup
        (fun b => (du_diffs n F a).count b)) with hc | hc
    · rw [hc]; exact hm
    · rw [hc]; exact heven

theorem du_fold_ge (n : ℕ) (F : ℕ → ℕ) (as : List ℕ) :
    ∀ m, m ≤ as.foldl (fun mx a => duInner n F a mx) m := by
  induction as with
  | nil => intro m; exact Nat.le_refl m
  | cons a t ih =>
    intro m
    rw [List.foldl_cons]
    calc m ≤ duInner n F a m := by rw [duInner_eq]; exact Nat.le_max_left _ _
    _ ≤ t.foldl (fun mx a => duInner n F a mx) (duInner n F a m) := ih _

/-- C5 (corrected): for a truth table of dimension n >= 2 with entries below
2^n, the value returned by `differential_uniformity` is even and at least 2.
(The spec's further claim that it divides 2^n is false; see the
counterexample.) -/
theorem differential_uniformity_even_ge_two (n : ℕ) (F : ℕ → ℕ)
    (hn : 2 ≤ n) (_hF : ∀ x, x < 2 ^ n → F x < 2 ^ n) :
    Even (differential_uniformity n F) ∧ 2 ≤ differential_uniformity n F := by
  have h4 : 4 ≤ 2 ^ n := by
    calc 4 = 2 ^ 2 := rfl
    _ ≤ 2 ^ n := Nat.pow_le_pow_right (by omega) hn
  unfold differential_uniformity
  constructor
  · refine du_fold_even n F _ ?_ 0 (by simp)
    intro a ha
    rw [List.mem_range'_1] at ha
    omega
  · have hsplit : List.range' 1 (2 ^ n - 1) = 1 :: List.range' 2 (2 ^ n - 2) := by
      have hform : 2 ^ n - 1 = (2 ^ n - 2) + 1 := by omega
      rw [hform, List.range'_succ]
    rw [hsplit, List.foldl_cons]
    have hstep : 2 ≤ duInner n F 1 0 := by
      rw [duInner_eq]
      have hb0 : F 0 ^^^ F 1 ∈ (du_diffs n F 1).toFinset := by
        rw [List.mem_toFinset]
        unfold du_diffs
        rw [List.mem_map]
        exact ⟨0, by simp [List.mem_range], by simp⟩
      have hcount : 2 ≤ (du_diffs n F 1).count (F 0 ^^^ F 1) := by
        unfold du_diffs
        rw [count_map_range]
        have hsub : ({0, 1} : Finset ℕ) ⊆
            (Finset.range (2 ^ n)).filter (fun x => F x ^^^ F (x ^^^ 1) = F 0 ^^^ F 1) := by
          intro x hx
          rw [Finset.mem_insert, Finset.mem_singleton] at hx
          rw [Finset.mem_filter, Finset.mem_range]
          rcases hx with hx | hx <;> subst hx
          · exact ⟨by omega, by simp⟩
          · refine ⟨by omega, ?_⟩
            have h11 : (1 : ℕ) ^^^ 1 = 0 := rfl
            rw [h11, Nat.xor_comm]
        have hcard : ({0, 1} : Finset ℕ).card = 2 := rfl
        calc 2 = ({0, 1} : Finset ℕ).card := hcard.symm
        _ ≤ _ := Finset.card_le_card hsub
      calc 2 ≤ (du_diffs n F 1).count (F 0 ^^^ F 1) := hcount
      _ ≤ (du_diffs n F 1).toFinset.sup (fun b => (du_diffs n F 1).count b) :=
          @Finset.le_sup ℕ ℕ _ _ ((du_diffs n F 1).toFinset)
            (fun b => (du_diffs n F 1).count b) (F 0 ^^^ F 1) hb0
      _ ≤ max 0 ((du_diffs n F 1).toFinset.sup (fun b => (du_diffs n F 1).count b)) :=
          Nat.le_max_right _ _
    calc 2 ≤ duInner n F 1 0 := hstep
    _ ≤ _ := du_fold_ge n F _ _

/-- The dimension-3 truth table that is 1 at input 7 and 0 elsewhere. -/
def ttInd7 : ℕ → ℕ := fun x => if x = 7 then 1 else 0

set_option maxRecDepth 40000 in
/-- C5 (counterexample): this dimension-3 truth table has differential
uniformity 6, which does not divide 2^3 = 8. -/
theorem differential_uniformity_not_divisor :
    differential_uniformity 3 ttInd7 = 6 ∧
    ¬ differential_uniformity 3 ttInd7 ∣ 2 ^ 3 ∧
    (∀ x, x < 2 ^ 3 → ttInd7 x < 2 ^ 3) := by
  refine ⟨by decide, ?_, by decide⟩
  intro hdvd
  rw [(by decide : differential_uniformity 3 ttInd7 = 6)] at hdvd
  omega

set_option maxRecDepth 40000 in
/-- C5 witness: instantiation of `differential_uniformity_even_ge_two` at the
dimension-2 identity table. -/
theorem differential_uniformity_even_ge_two_witness :
    Even (differential_uniformity 2 (fun x => x &&& 3)) ∧
    2 ≤ differential_uniformity 2 (fun x => x &&& 3) :=
  differential_uniformity_even_ge_two 2 (fun x => x &&& 3) (by decide)
    (by decide)

/-! ## invariants_computations.cpp : GF2nCtx (lines 334-368), gf_mul,
gf_pow (lines 370-388) and is_monomial_impl (lines 390-460)

`build_tables` fills `alog[0] = 1` and `alog[i] = alog[i-1] << 1`, reduced
with the user polynomial whenever bit n is set; indexes up to `size - 2` are
filled (slot `size - 1` stays 0 and is never read, since every index used is
reduced mod `size - 1`).  The log table starts all-zero and is written
ascending with `log[alog[i]] = i`. -/

def alogFun (n poly : ℕ) : ℕ → ℕ
  | 0 => 1
  | i + 1 =>
    if (alogFun n poly i <<< 1) &&& (1 <<< n) ≠ 0
    then (alogFun n poly i <<< 1) ^^^ poly
    else alogFun n poly i <<< 1

def logFun (n poly : ℕ) : ℕ → ℕ :=
  (List.range (2 ^ n - 1)).foldl
    (fun lg i => Function.update lg (alogFun n poly i) i) (fun _ => 0)

def gf_mul (n poly : ℕ) (x y : ℕ) : ℕ :=
  if x = 0 ∨ y = 0 then 0
  else alogFun n poly ((logFun n poly x + logFun n poly y) % (2 ^ n - 1))

def gf_pow (n poly : ℕ) (x d : ℕ) : ℕ :=
  if x = 0 then (if d = 0 then 1 else 0)
  else alogFun n poly ((logFun n poly x * d) % (2 ^ n - 1))

/-- `is_monomial_impl`: reject a missing polynomial or n > 16, set
b = F(0), reject constants, then for each exponent d probe the first x >= 1
with x^d nonzero, solve a = (F(x) ^ b) * (x^d)^(-1), and verify the closed
form for all inputs; the first full match returns true. -/
def is_monomial_impl (n poly : ℕ) (F : ℕ → ℕ) : Bool :=
  if poly = 0 then false
  else if 16 < n then false
  else
    if (List.range (2 ^ n)).all (fun x => F x == F 0) then false
    else
      (List.range (2 ^ n - 1)).any (fun d =>
        match (List.range' 1 (2 ^ n - 1)).find? (fun x => gf_pow n poly x d != 0) with
        | none => false
        | some x =>
          let diff := F x ^^^ F 0
          let a := if diff = 0 then 0
                   else gf_mul n poly diff (gf_pow n poly x (2 ^ n - 1 - d))
          (List.range (2 ^ n)).all (fun xx =>
            F xx == (if a ≠ 0 ∧ gf_pow n poly xx d ≠ 0
                     then F 0 ^^^ gf_mul n poly a (gf_pow n poly xx d)
                     else F 0)))

/-- F is constant on its domain [0, 2^n). -/
def IsConstant (n : ℕ) (F : ℕ → ℕ) : Prop := ∀ x, x < 2 ^ n → F x = F 0

instance (n : ℕ) (F : ℕ → ℕ) : Decidable (IsConstant n F) :=
  inferInstanceAs (Decidable (∀ x, x < 2 ^ n → F x = F 0))

/-- The claim's right-hand side: there are a, b in GF(2^n) and an exponent
d in [0, 2^n - 1) with F(x) = a * x^d XOR b for every x, where the product
and power are the code's own table arithmetic for the bitmask `poly` (the
spec, section 4.A, defines pow by the very same log/antilog tables). -/
def MonomialWitness (n poly : ℕ) (F : ℕ → ℕ) : Prop :=
  ∃ d, d < 2 ^ n - 1 ∧ ∃ a, a < 2 ^ n ∧ ∃ b, b < 2 ^ n ∧
    ∀ x, x < 2 ^ n → F x = gf_mul n poly a (gf_pow n poly x d) ^^^ b

instance (n poly : ℕ) (F : ℕ → ℕ) : Decidable (MonomialWitness n poly F) :=
  inferInstanceAs (Decidable (∃ d, d < 2 ^ n - 1 ∧ ∃ a, a < 2 ^ n ∧ ∃ b, b < 2 ^ n ∧
    ∀ x, x < 2 ^ n → F x = gf_mul n poly a (gf_pow n poly x d) ^^^ b))

/-- The antilog table enumerates each value injectively inside [1, 2^n) on
the index range [0, 2^n - 1) actually used — i.e. the bitmask generates
correct discrete-log tables, which is what a primitive polynomial of degree
n gives. -/
def AlogBijective (n poly : ℕ) : Prop :=
  (∀ i, i < 2 ^ n - 1 → 0 < alogFun n poly i ∧ alogFun n poly i < 2 ^ n) ∧
  (∀ i, i < 2 ^ n - 1 → ∀ j, j < 2 ^ n - 1 → alogFun n poly i = alogFun n poly j → i = j)

instance (n poly : ℕ) : Decidable (AlogBijective n poly) :=
  inferInstanceAs (Decidable (
    (∀ i, i < 2 ^ n - 1 → 0 < alogFun n poly i ∧ alogFun n poly i < 2 ^ n) ∧
    (∀ i, i < 2 ^ n - 1 → ∀ j, j < 2 ^ n - 1 → alogFun n poly i = alogFun n poly j → i = j)))

theorem foldl_update_nomem (f : ℕ → ℕ) (l : List ℕ) (lg : ℕ → ℕ) (k : ℕ)
    (h : ∀ j ∈ l, f j ≠ k) :
    l.foldl (fun lg j => Function.update lg (f j) j) lg k = lg k := by
  induction l generalizing lg with
  | nil => rfl
  | cons j t ih =>
    rw [List.foldl_cons, ih _ (fun j' hj' => h j' (by simp [hj']))]
    exact Function.update_noteq (Ne.symm (h j (by simp))) j lg

theorem foldl_update_lookup (f : ℕ → ℕ) (l : List ℕ) (lg : ℕ → ℕ) (i : ℕ)
    (hi : i ∈ l) (hinj : ∀ j ∈ l, f j = f i → j = i) :
    l.foldl (fun lg j => Function.update lg (f j) j) lg (f i) = i := by
  induction l generalizing lg with
  | nil => cases hi
  | cons j t ih =>
    rw [List.foldl_cons]
    by_cases hit : i ∈ t
    · exact ih _ hit (fun j' hj' he => hinj j' (by simp [hj']) he)
    · have hij : i = j := by
        rcases List.mem_cons.mp hi with hh | hh
        · exact hh
        · exact absurd hh hit
      subst hij
      rw [foldl_update_nomem f t _ (f i) ?_]
      · simp
      · intro j' hj' heq
        have hji : j' = i := hinj j' (by simp [hj']) heq
        exact hit (hji ▸ hj')

theorem foldl_update_result (f : ℕ → ℕ) (l : List ℕ) (lg : ℕ → ℕ) (k : ℕ) :
    l.foldl (fun lg j => Function.update lg (f j) j) lg k = lg k ∨
    l.foldl (fun lg j => Function.update lg (f j) j) lg k ∈ l := by
  induction l generalizing lg with
  | nil => left; rfl
  | cons j t ih =>
    rw [List.foldl_cons]
    rcases ih (Function.update lg (f j) j) with hres | hres
    · rw [hres]
      by_cases hk : k = f j
      · right
        rw [hk]
        simp
      · left
        rw [Function.update_noteq hk]
    · right
      simp [hres]

theorem logFun_alogFun (n poly : ℕ) (h : AlogBijective n poly) :
    ∀ i, i < 2 ^ n - 1 → logFun n poly (alogFun n poly i) = i := by
  intro i hi
  unfold logFun
  exact foldl_update_lookup (alogFun n poly) (List.range (2 ^ n - 1)) _ i
    (List.mem_range.mpr hi)
    (fun j hj heq => h.2 j (List.mem_range.mp hj) i hi heq)

theorem logFun_lt (n poly : ℕ) (hm : 0 < 2 ^ n - 1) (v : ℕ) :
    logFun n poly v < 2 ^ n - 1 := by
  unfold logFun
  rcases foldl_update_result (alogFun n poly) (List.range (2 ^ n - 1)) (fun _ => 0) v
    with hres | hres
  · rw [hres]
    exact hm
  · exact List.mem_range.mp hres

theorem alog_surj (n poly : ℕ) (h : AlogBijective n poly) :
    ∀ v, 0 < v → v < 2 ^ n → ∃ i, i < 2 ^ n - 1 ∧ alogFun n poly i = v := by
  intro v hv0 hvN
  have hmaps : ∀ i ∈ Finset.range (2 ^ n - 1),
      alogFun n poly i ∈ Finset.Ico 1 (2 ^ n) := by
    intro i hi
    have hb := h.1 i (Finset.mem_range.mp hi)
    rw [Finset.mem_Ico]
    omega
  have hinj : ∀ (i₁ i₂ : ℕ), i₁ ∈ Finset.range (2 ^ n - 1) →
      i₂ ∈ Finset.range (2 ^ n - 1) →
      alogFun n poly i₁ = alogFun n poly i₂ → i₁ = i₂ := fun i₁ i₂ h₁ h₂ he =>
    h.2 i₁ (Finset.mem_range.mp h₁) i₂ (Finset.mem_range.mp h₂) he
  have hcard : (Finset.Ico 1 (2 ^ n)).card ≤ (Finset.range (2 ^ n - 1)).card := by
    simp [Nat.card_Ico]
  obtain ⟨i, hi, hiv⟩ := Finset.surj_on_of_inj_on_of_card_le (fun i _ => alogFun n poly i)
    hmaps hinj hcard v (Finset.mem_Ico.mpr ⟨hv0, hvN⟩)
  exact ⟨i, Finset.mem_range.mp hi, hiv.symm⟩

theorem alogFun_logFun (n poly : ℕ) (h : AlogBijective n poly) :
    ∀ v, 0 < v → v < 2 ^ n → alogFun n poly (logFun n poly v) = v := by
  intro v hv0 hvN
  obtain ⟨i, hi, hiv⟩ := alog_surj n poly h v hv0 hvN
  rw [← hiv, logFun_alogFun n poly h i hi]

theorem logFun_one (n poly : ℕ) (h : AlogBijective n poly) (hm : 0 < 2 ^ n - 1) :
    logFun n poly 1 = 0 := by
  have h0 := logFun_alogFun n poly h 0 hm
  have ha0 : alogFun n poly 0 = 1 := rfl
  rw [ha0] at h0
  exact h0

theorem gf_mul_zero_left (n poly y : ℕ) : gf_mul n poly 0 y = 0 := by
  simp [gf_mul]

theorem gf_mul_zero_right (n poly x : ℕ) : gf_mul n poly x 0 = 0 := by
  simp [gf_mul]

theorem gf_mul_lt (n poly : ℕ) (h : AlogBijective n poly) (hm : 0 < 2 ^ n - 1)
    (x y : ℕ) : gf_mul n poly x y < 2 ^ n := by
  have hN : 1 ≤ 2 ^ n := Nat.one_le_two_pow
  unfold gf_mul
  by_cases hz : x = 0 ∨ y = 0
  · rw [if_pos hz]
    omega
  · rw [if_neg hz]
    exact (h.1 _ (Nat.mod_lt _ hm)).2

theorem gf_pow_d_zero (n poly x : ℕ) : gf_pow n poly x 0 = 1 := by
  unfold gf_pow
  by_cases hx : x = 0
  · rw [if_pos hx]
    rfl
  · rw [if_neg hx, Nat.mul_zero, Nat.zero_mod]
    rfl

theorem gf_pow_zero_left (n poly d : ℕ) (hd : d ≠ 0) : gf_pow n poly 0 d = 0 := by
  unfold gf_pow
  rw [if_pos rfl, if_neg hd]

theorem gf_pow_ne_zero (n poly : ℕ) (h : AlogBijective n poly) (hm : 0 < 2 ^ n - 1)
    (x d : ℕ) (hx : x ≠ 0) : gf_pow n poly x d ≠ 0 := by
  unfold gf_pow
  rw [if_neg hx]
  have := (h.1 _ (Nat.mod_lt (logFun n poly x * d) hm)).1
  omega

theorem gf_pow_one_base (n poly : ℕ) (h : AlogBijective n poly) (hm : 0 < 2 ^ n - 1)
    (d : ℕ) : gf_pow n poly 1 d = 1 := by
  unfold gf_pow
  rw [if_neg one_ne_zero, logFun_one n poly h hm, Nat.zero_mul, Nat.zero_mod]
  rfl

theorem gf_mul_one (n poly : ℕ) (h : AlogBijective n poly) (hm : 0 < 2 ^ n - 1)
    (x : ℕ) (hxN : x < 2 ^ n) : gf_mul n poly x 1 = x := by
  by_cases hx : x = 0
  · rw [hx, gf_mul_zero_left]
  · unfold gf_mul
    rw [if_neg (by simp [hx]), logFun_one n poly h hm, Nat.add_zero,
      Nat.mod_eq_of_lt (logFun_lt n poly hm x)]
    exact alogFun_logFun n poly h x (by omega) hxN

theorem find?_range'_head (p : ℕ → Bool) (k : ℕ) (hk : 0 < k) (hp : p 1 = true) :
    (List.range' 1 k).find? p = some 1 := by
  obtain ⟨k', rfl⟩ : ∃ k', k = k' + 1 := ⟨k - 1, by omega⟩
  rw [List.range'_succ, List.find?_cons_of_pos _ hp]

/-- C6 (corrected): with a degree-n bitmask whose antilog table is correct
(what a primitive polynomial provides) and n <= 16, `is_monomial_impl`
returns true exactly on the non-constant tables of the form
a * x^d XOR b; without a polynomial, or for n > 16, it returns false. -/
theorem is_monomial_impl_correct (n poly : ℕ) (F : ℕ → ℕ)
    (hn16 : n ≤ 16) (hpoly : poly ≠ 0)
    (htbl : AlogBijective n poly) (hF : ∀ x, x < 2 ^ n → F x < 2 ^ n) :
    (is_monomial_impl n poly F = true ↔ ¬ IsConstant n F ∧ MonomialWitness n poly F) ∧
    (∀ (n' poly' : ℕ) (F' : ℕ → ℕ), poly' = 0 ∨ 16 < n' →
      is_monomial_impl n' poly' F' = false) := by
  have hsecond : ∀ (n' poly' : ℕ) (F' : ℕ → ℕ), poly' = 0 ∨ 16 < n' →
      is_monomial_impl n' poly' F' = false := by
    intro n' poly' F' hcase
    unfold is_monomial_impl
    by_cases hp : poly' = 0
    · rw [if_pos hp]
    · rcases hcase with hc | hc
      · exact absurd hc hp
      · rw [if_neg hp, if_pos hc]
  refine ⟨?_, hsecond⟩
  by_cases hn0 : n = 0
  · subst hn0
    have hcode : is_monomial_impl 0 poly F = false := by
      unfold is_monomial_impl
      rw [if_neg hpoly, if_neg (by omega), if_pos (by simp)]
    have hconst : IsConstant 0 F := by
      intro x hx
      have hx0 : x = 0 := by omega
      rw [hx0]
    rw [hcode]
    simp [hconst]
  have hN2 : 2 ≤ 2 ^ n := by
    calc 2 = 2 ^ 1 := rfl
    _ ≤ 2 ^ n := Nat.pow_le_pow_right (by omega) (by omega)
  have hm : 0 < 2 ^ n - 1 := by omega
  constructor
  · -- soundness: the verified candidate is itself a witness
    intro hcode
    unfold is_monomial_impl at hcode
    rw [if_neg hpoly, if_neg (by omega : ¬ 16 < n)] at hcode
    by_cases hconst : (List.range (2 ^ n)).all (fun x => F x == F 0) = true
    · rw [if_pos hconst] at hcode
      cases hcode
    · rw [if_neg hconst] at hcode
      have hnc : ¬ IsConstant n F := by
        intro hic
        apply hconst
        apply List.all_eq_true.mpr
        intro x hx
        rw [beq_iff_eq]
        exact hic x (List.mem_range.mp hx)
      refine ⟨hnc, ?_⟩
      obtain ⟨d, hdmem, hdbranch⟩ := List.any_eq_true.mp hcode
      cases hfind : (List.range' 1 (2 ^ n - 1)).find?
          (fun x => gf_pow n poly x d != 0) with
      | none =>
        rw [hfind] at hdbranch
        cases hdbranch
      | some x =>
        rw [hfind] at hdbranch
        refine ⟨d, List.mem_range.mp hdmem,
          (if F x ^^^ F 0 = 0 then 0
           else gf_mul n poly (F x ^^^ F 0) (gf_pow n poly x (2 ^ n - 1 - d))), ?_,
          F 0, hF 0 (by omega), ?_⟩
        · by_cases hdiff : F x ^^^ F 0 = 0
          · rw [if_pos hdiff]
            omega
          · rw [if_neg hdiff]
            exact gf_mul_lt n poly htbl hm _ _
        · intro xx hxx
          have hxxeq := List.all_eq_true.mp hdbranch xx (List.mem_range.mpr hxx)
          rw [beq_iff_eq] at hxxeq
          rw [hxxeq]
          set ac := (if F x ^^^ F 0 = 0 then 0
            else gf_mul n poly (F x ^^^ F 0) (gf_pow n poly x (2 ^ n - 1 - d))) with hac
          by_cases hcond : ac ≠ 0 ∧ gf_pow n poly xx d ≠ 0
          · rw [if_pos hcond, Nat.xor_comm]
          · rw [if_neg hcond]
            rcases Decidable.not_and_iff_or_not.mp hcond with hz | hz
            · have haz : ac = 0 := by omega
              rw [haz, gf_mul_zero_left, Nat.zero_xor]
            · have hpz : gf_pow n poly xx d = 0 := by omega
              rw [hpz, gf_mul_zero_right, Nat.zero_xor]
  · -- completeness: a witness makes the probe at x = 1 succeed
    rintro ⟨hnc, d, hd, a, haN, b, hbN, heq⟩
    unfold is_monomial_impl
    rw [if_neg hpoly, if_neg (by omega : ¬ 16 < n)]
    have hconstF : ¬ (List.range (2 ^ n)).all (fun x => F x == F 0) = true := by
      intro hall
      apply hnc
      intro x hx
      have := List.all_eq_true.mp hall x (List.mem_range.mpr hx)
      rwa [beq_iff_eq] at this
    rw [if_neg hconstF]
    have hd0 : d ≠ 0 := by
      intro h0
      subst h0
      apply hnc
      intro x hx
      have hE := heq x hx
      have hE0 := heq 0 (by omega)
      rw [gf_pow_d_zero] at hE hE0
      rw [hE, hE0]
    have hb : b = F 0 := by
      have hE0 := heq 0 (by omega)
      rw [gf_pow_zero_left n poly d hd0, gf_mul_zero_right, Nat.zero_xor] at hE0
      exact hE0.symm
    have ha0 : a ≠ 0 := by
      intro h0
      subst h0
      apply hnc
      intro x hx
      have hE := heq x hx
      rw [gf_mul_zero_left, Nat.zero_xor] at hE
      rw [hE, hb]
    apply List.any_eq_true.mpr
    refine ⟨d, List.mem_range.mpr hd, ?_⟩
    have hp1 : ((fun x => gf_pow n poly x d != 0) 1) = true := by
      rw [bne_iff_ne, gf_pow_one_base n poly htbl hm]
      omega
    rw [find?_range'_head _ _ hm hp1]
    have hdiff : F 1 ^^^ F 0 = a := by
      have hE1 := heq 1 (by omega)
      rw [gf_pow_one_base n poly htbl hm,
        gf_mul_one n poly htbl hm a haN] at hE1
      rw [hE1, ← hb, Nat.xor_cancel_right]
    have hAc : (if F 1 ^^^ F 0 = 0 then 0
        else gf_mul n poly (F 1 ^^^ F 0) (gf_pow n poly 1 (2 ^ n - 1 - d))) = a := by
      rw [hdiff, if_neg ha0, gf_pow_one_base n poly htbl hm,
        gf_mul_one n poly htbl hm a haN]
    show (List.range (2 ^ n)).all _ = true
    apply List.all_eq_true.mpr
    intro xx hxxmem
    rw [beq_iff_eq]
    simp only [hAc]
    have hE := heq xx (List.mem_range.mp hxxmem)
    by_cases hpw : gf_pow n poly xx d = 0
    · rw [if_neg (fun hand => hand.2 hpw)]
      rw [hpw, gf_mul_zero_right, Nat.zero_xor] at hE
      rw [hE, hb]
    · rw [if_pos ⟨ha0, hpw⟩, hE, ← hb, Nat.xor_comm]

/-- C6 (counterexample): the constant table [1, 1, 1, 1] of dimension 2 with
the primitive bitmask 7 = x^2+x+1 satisfies the claimed existential with
a = 0, b = 1 and any d, yet `is_monomial_impl` rejects every constant. -/
theorem is_monomial_impl_constant_counterexample :
    is_monomial_impl 2 7 (fun _ => 1) = false ∧
    MonomialWitness 2 7 (fun _ => 1) ∧
    (7 : ℕ) ≠ 0 ∧ (2 : ℕ) ≤ 16 ∧ AlogBijective 2 7 ∧
    (∀ x, x < 2 ^ 2 → (fun _ => (1 : ℕ)) x < 2 ^ 2) := by
  refine ⟨by decide, ⟨1, by decide, 0, by decide, 1, by decide, ?_⟩, by decide,
    by decide, by decide, by decide⟩
  intro x _
  rw [gf_mul_zero_left, Nat.zero_xor]

/-- C6 witness: instantiation of `is_monomial_impl_correct` at the identity
table in dimension 2 with the primitive bitmask 7. -/
theorem is_monomial_impl_correct_witness :
    (is_monomial_impl 2 7 idF = true ↔
      ¬ IsConstant 2 idF ∧ MonomialWitness 2 7 idF) ∧
    (∀ (n' poly' : ℕ) (F' : ℕ → ℕ), poly' = 0 ∨ 16 < n' →
      is_monomial_impl n' poly' F' = false) :=
  is_monomial_impl_correct 2 7 idF (by decide) (by decide) (by decide)
    (by decide)

/-! ## check_lin_eq_2x_uniform_3to1.c : the equivalence engine

Truth tables become `List ℕ` (entry x read with `getD x 0`), the
`triplicate` and `linear` structs keep their C layout (`t` is the flat
4-block array, a `linear` is the pair of inverse arrays with the 0
sentinel).  In the C every recursive branch works on copies of the mutable
buffers, so mutation becomes value passing; the shared `xgs` buffer is
passed along, which is observationally equal to the C sharing because every
region of `xgs` is rewritten by a branch before that branch reads it.  The
C recursion depth is bounded (the scan position `pf` advances at each
level), so a fuel of 4N makes the recursion structural without changing the
result. -/

structure triplicate where
  tN : ℕ
  t : List ℕ
  ol : List ℕ

structure linear where
  y : List ℕ
  x : List ℕ

/-- `is_canonical_triplicate_internal` (lines 138-210), the loop over
i = 1 .. N-1.  State: the visited marks `c`, the triple table under
construction and the row counter `j`.  On a violation the C frees the
partial table and reports false, so failures collapse to `none`. -/
def ict_loop (dim : ℕ) (F : List ℕ) :
    List ℕ → List ℕ → triplicate → ℕ → Option triplicate
  | [], _, T, _ => some T
  | i :: rest, c, T, j =>
    if c.getD i 0 ≠ 0 then
      if F.getD i 0 = 0 then none
      else if T.ol.getD (F.getD i 0) 0 ≠ 0 then none
      else
        let k := ff_multiply i (get_beta dim) (get_primitive_polynomial dim) dim
        if F.getD k 0 ≠ F.getD i 0 ∨ F.getD (k ^^^ i) 0 ≠ F.getD i 0 then none
        else
          ict_loop dim F rest (((c.set i 0).set k 0).set (k ^^^ i) 0)
            ⟨T.tN,
             (((T.t.set (0 * T.tN + j) (F.getD i 0)).set (1 * T.tN + j) i).set
               (2 * T.tN + j) k).set (3 * T.tN + j) (k ^^^ i),
             T.ol.set (F.getD i 0) (j + 1)⟩
            (j + 1)
    else ict_loop dim F rest c T j

def is_canonical_triplicate_internal (dim : ℕ) (F : List ℕ) : Option triplicate :=
  if dim < 4 ∨ 20 < dim ∨ dim % 2 ≠ 0 then none
  else if F.getD 0 0 ≠ 0 then none
  else
    let N := 2 ^ dim
    let tN := (N - 1) / 3
    ict_loop dim F (List.range' 1 (N - 1)) (List.replicate N 1)
      ⟨tN, List.replicate (tN * 4) 0, List.replicate N 0⟩ 0

/-- One j-step of `check` (lines 238-299): XOR the new fact `fgs[i]`
against `fgs[j]`, prune on any of the three contradictions, and append the
derived fact (configured exactly when both values lie outside the triplet
outputs). State: (L1, fgs, k). -/
def chk_inner (Ft Gt : triplicate) (N i : ℕ) :
    List ℕ → linear × List ℕ × ℕ → Option (linear × List ℕ × ℕ)
  | [], st => some st
  | j :: js, (L1, fgs, k) =>
    let f := fgs.getD i 0 ^^^ fgs.getD j 0
    let gv := L1.y.getD (fgs.getD i 0) 0 ^^^ L1.y.getD (fgs.getD j 0) 0
    if (f = 0 ∧ gv ≠ 0) ∨ (gv = 0 ∧ f ≠ 0) then none
    else if L1.x.getD gv 0 ≠ 0 ∧ L1.x.getD gv 0 ≠ f then none
    else if L1.y.getD f 0 ≠ 0 ∧ L1.y.getD f 0 ≠ gv then none
    else if L1.y.getD f 0 = 0 ∧ f ≠ 0 then
      if Ft.ol.getD f 0 ≠ 0 ∧ Gt.ol.getD gv 0 ≠ 0 then
        chk_inner Ft Gt N i js (⟨L1.y.set f gv, L1.x.set gv f⟩, fgs.set k f, k + 1)
      else if Ft.ol.getD f 0 = 0 ∧ Gt.ol.getD gv 0 = 0 then
        chk_inner Ft Gt N i js
          (⟨L1.y.set f gv, L1.x.set gv f⟩, (fgs.set k f).set (N + k) 1, k + 1)
      else none
    else chk_inner Ft Gt N i js (L1, fgs, k)

/-- The i-loop of `check`: for each i the inner j-ranges are [0, i) and
[b, n), and n is refreshed to k after each i. -/
def chk_outer (Ft Gt : triplicate) (N b : ℕ) :
    List ℕ → ℕ → linear × List ℕ × ℕ → Option (linear × List ℕ)
  | [], _, (L1, fgs, _) => some (L1, fgs)
  | i :: irest, nn, st =>
    match chk_inner Ft Gt N i (List.range i ++ List.range' b (nn - b)) st with
    | none => none
    | some (L1, fgs, k) => chk_outer Ft Gt N b irest k (L1, fgs, k)

def chk (Ft Gt : triplicate) (N : ℕ) (L1 : linear) (fgs : List ℕ) (a : ℕ) :
    Option (linear × List ℕ) :=
  let b := (fgs.takeWhile (fun v => v != 0)).length
  chk_outer Ft Gt N b (List.range' a (b - a)) b (L1, fgs, b)

/-- One of the nine pair-sums of `combine` (lines 408-452); the inverse
write reads the y-slot just written, exactly as the C does. -/
def comb_step (a i q1 q2 off : ℕ) (st : linear × List ℕ) : linear × List ℕ :=
  let L2 := st.1
  let xgs := st.2
  let s := xgs.getD (a + q1) 0 ^^^ xgs.getD (i + q2) 0
  let v := L2.y.getD (xgs.getD (a + q1) 0) 0 ^^^ L2.y.getD (xgs.getD (i + q2) 0) 0
  let y2 := L2.y.set s v
  (⟨y2, L2.x.set (y2.getD s 0) s⟩, xgs.set ((a + 3) + 3 * i + off) s)

/-- `combine`: the newest L2 triple at positions [a, a+3) is summed against
every earlier triple block; the C writes the nine xgs appends after the
nine L2 updates of a block, but no step of a block reads a cell another
step of the same block writes, so the sequential composition below is the
same map. -/
def combine (L2 : linear) (xgs : List ℕ) (px : ℕ) : linear × List ℕ :=
  let a := (1 <<< (2 * px)) - 1
  (List.range (a / 3)).foldl
    (fun st t =>
      let i := 3 * t
      comb_step a i 2 1 8 (comb_step a i 1 0 7 (comb_step a i 0 2 6
        (comb_step a i 2 0 5 (comb_step a i 1 2 4 (comb_step a i 0 1 3
          (comb_step a i 2 2 2 (comb_step a i 1 1 1
            (comb_step a i 0 0 0 st)))))))))
    (L2, xgs)

/-- `generateF` (lines 455-491): walk every third new xgs entry, derive the
L1 image of `F(L2(x))` from `G(x)`, prune contradictions; an already-known
fact only marks its guess slot configured. -/
def gen_loop (F G : List ℕ) (N : ℕ) (L2 : linear) (xgs : List ℕ) :
    List ℕ → linear × List ℕ × ℕ → Option (linear × List ℕ × ℕ)
  | [], st => some st
  | i :: irest, (L1, fgs, nn) =>
    let g := G.getD (xgs.getD i 0) 0
    let f := F.getD (L2.y.getD (xgs.getD i 0) 0) 0
    if (f = 0 ∧ g ≠ 0) ∨ (g = 0 ∧ f ≠ 0) then none
    else if L1.x.getD g 0 ≠ 0 ∧ L1.x.getD g 0 ≠ f then none
    else if L1.y.getD f 0 ≠ 0 ∧ L1.y.getD f 0 ≠ g then none
    else if L1.y.getD f 0 ≠ 0 then
      match (List.range nn).find? (fun k => fgs.getD k 0 == f) with
      | some k => gen_loop F G N L2 xgs irest (L1, fgs.set (N + k) 1, nn)
      | none => gen_loop F G N L2 xgs irest (L1, fgs, nn)
    else
      gen_loop F G N L2 xgs irest
        (⟨L1.y.set f g, L1.x.set g f⟩, (fgs.set nn f).set (N + nn) 1, nn + 1)

def generateF (F G : List ℕ) (N : ℕ) (L1 L2 : linear) (fgs xgs : List ℕ)
    (px : ℕ) : Option (ℕ × linear × List ℕ) :=
  let a := (1 <<< (2 * px)) + 2
  let b := (1 <<< (2 * (px + 1))) - 1
  let n0 := (fgs.takeWhile (fun v => v != 0)).length
  match gen_loop F G N L2 xgs ((List.range ((b - a + 2) / 3)).map (fun t => a + 3 * t))
      (L1, fgs, n0) with
  | none => none
  | some (L1, fgs, _) => some (n0, L1, fgs)

/-- `configure` (lines 494-555): install one of the six permutations of the
three preimages of row f of T_F as the L2 images of the preimages of row g
of T_G. -/
def configure (Ft Gt : triplicate) (L2 : linear) (f g : ℕ) (xymc cfg : ℕ) :
    linear :=
  let gp := fun q => Gt.t.getD (q * Gt.tN + g) 0
  let fp := fun q => Ft.t.getD (q * Ft.tN + f) 0
  let app := fun (p1 p2 p3 : ℕ) =>
    (⟨((L2.y.set (gp 1) (fp p1)).set (gp 2) (fp p2)).set (gp 3) (fp p3),
      ((L2.x.set (fp p1) (gp 1)).set (fp p2) (gp 2)).set (fp p3) (gp 3)⟩ : linear)
  if cfg = 1 then
    if xymc = 0 then app 1 2 3
    else if xymc = 1 then app 2 3 1
    else if xymc = 2 then app 3 1 2
    else L2
  else
    if xymc = 0 then app 2 1 3
    else if xymc = 1 then app 3 2 1
    else if xymc = 2 then app 1 3 2
    else L2

/-- One xymc attempt of `assignF` (lines 558-605): configure, combine,
generate, check, and on success descend into the continuation `gnext`
(the `guess` of the next fuel level). -/
def assign_att (gnext : linear → linear → List ℕ → List ℕ → ℕ → ℕ → Bool)
    (F G : List ℕ) (Ft Gt : triplicate) (N : ℕ) (L1 L2 : linear)
    (f g : ℕ) (fgs xgs : List ℕ) (px cfg xymc : ℕ) : Bool :=
  let L2c := configure Ft Gt L2 f g xymc cfg
  let cb := combine L2c xgs px
  match generateF F G N L1 cb.1 fgs cb.2 px with
  | none => false
  | some (av, l1, fgss) =>
    match chk Ft Gt N l1 fgss av with
    | none => false
    | some p => gnext p.1 cb.1 p.2 cb.2 (px + 1) cfg

/-- The xymc = 0, 1, 2 loop of `assignF`; the combine-written region of
`xgs` does not depend on the L2 configuration, so each attempt may start
from the caller's `xgs`. -/
def assign_all (gnext : linear → linear → List ℕ → List ℕ → ℕ → ℕ → Bool)
    (F G : List ℕ) (Ft Gt : triplicate) (N : ℕ) (L1 L2 : linear)
    (f g : ℕ) (fgs xgs : List ℕ) (px cfg : ℕ) : Bool :=
  assign_att gnext F G Ft Gt N L1 L2 f g fgs xgs px cfg 0 ||
  (assign_att gnext F G Ft Gt N L1 L2 f g fgs xgs px cfg 1 ||
   assign_att gnext F G Ft Gt N L1 L2 f g fgs xgs px cfg 2)

/-- The `while (L1.x[Gt.t[g]] != 0 && g < Gt.tN) g++` advance of `guess`. -/
def g_advance (Gt : triplicate) (L1 : linear) (g0 : ℕ) : ℕ :=
  match (List.range' g0 (Gt.tN - g0)).find?
      (fun g => L1.x.getD (Gt.t.getD g 0) 0 == 0) with
  | some g => g
  | none => Gt.tN

/-- The g-loop of the second case of `guess` (lines 353-403): try each free
G row for the first free F row, undoing state by virtue of passing copies. -/
def gloop (anext : linear → ℕ → ℕ → List ℕ → List ℕ → Bool)
    (Ft Gt : triplicate) (N : ℕ) (L1 L2 : linear) (fgs xgs : List ℕ)
    (px pf fRow : ℕ) : ℕ → ℕ → Bool
  | 0, _ => false
  | k + 1, g_ =>
    if Gt.tN ≤ g_ then false
    else
      let l1 : linear := ⟨L1.y.set (Ft.t.getD fRow 0) (Gt.t.getD g_ 0),
                          L1.x.set (Gt.t.getD g_ 0) (Ft.t.getD fRow 0)⟩
      let fgss := fgs.set pf (Ft.t.getD fRow 0)
      let res :=
        match chk Ft Gt N l1 fgss pf with
        | none => false
        | some p =>
          let nn := (1 <<< (2 * px)) - 1
          let xgs1 := ((xgs.set nn (Gt.t.getD (1 * Gt.tN + g_) 0)).set (nn + 1)
            (Gt.t.getD (2 * Gt.tN + g_) 0)).set (nn + 2) (Gt.t.getD (3 * Gt.tN + g_) 0)
          anext p.1 fRow g_ ((p.2).set (N + pf) 1) xgs1
      if res then true
      else
        gloop anext Ft Gt N L1 L2 fgs xgs px pf fRow k (g_advance Gt L1 (g_ + 1))

/-- `guess` (lines 302-405): find the first unconfigured guess slot; if none
remains below N - 1 the search has succeeded.  A slot with a committed L1
image descends through its forced rows; an empty slot pairs the first free
F row with every free G row. -/
def guess (F G : List ℕ) (Ft Gt : triplicate) (N : ℕ) :
    ℕ → linear → linear → List ℕ → List ℕ → ℕ → ℕ → Bool
  | 0, _, _, _, _, _, _ => false
  | fuel + 1, L1, L2, fgs, xgs, px, cfg =>
    let nn := (1 <<< (2 * px)) - 1
    match (List.range (N - 1)).find? (fun i => fgs.getD (N + i) 0 == 0) with
    | none => true
    | some pf =>
      if fgs.getD pf 0 ≠ 0 then
        let f := Ft.ol.getD (fgs.getD pf 0) 0 - 1
        let g := Gt.ol.getD (L1.y.getD (fgs.getD pf 0) 0) 0 - 1
        let fgss := fgs.set (N + pf) 1
        let xgs1 := ((xgs.set nn (Gt.t.getD (1 * Gt.tN + g) 0)).set (nn + 1)
          (Gt.t.getD (2 * Gt.tN + g) 0)).set (nn + 2) (Gt.t.getD (3 * Gt.tN + g) 0)
        assign_all (fun l1 l2 fgs2 xgs2 px2 cfg2 =>
            guess F G Ft Gt N fuel l1 l2 fgs2 xgs2 px2 cfg2)
          F G Ft Gt N L1 L2 f g fgss xgs1 px cfg
      else
        let fRow :=
          match (List.range Ft.tN).find?
              (fun fr => L1.y.getD (Ft.t.getD fr 0) 0 == 0) with
          | some fr => fr
          | none => Ft.tN
        gloop (fun l1 fR gR fgs2 xgs2 =>
            assign_all (fun l1b l2b fgs3 xgs3 px3 cfg3 =>
                guess F G Ft Gt N fuel l1b l2b fgs3 xgs3 px3 cfg3)
              F G Ft Gt N l1 L2 fR gR fgs2 xgs2 px cfg)
          Ft Gt N L1 L2 fgs xgs px pf fRow Gt.tN (g_advance Gt L1 0)

/-- One root attempt of `test_triplicate_linear_equivalence` (lines 608-661)
restricted to a single xymc configuration: seed the root L1 fact pairing row 0
of T_F with row g of T_G, the root L2 triple and the first xgs block, and run
one xymc attempt of `assignF` with configuration class `cfg`.  The C builds
these seeds once per root pairing and passes copies down, so rebuilding them
per attempt is the same map. -/
def tle_att (F G : List ℕ) (Ft Gt : triplicate) (N : ℕ) (g_ cfg xymc : ℕ) : Bool :=
  let L1 : linear := ⟨(List.replicate N 0).set (Ft.t.getD 0 0) (Gt.t.getD g_ 0),
                      (List.replicate N 0).set (Gt.t.getD g_ 0) (Ft.t.getD 0 0)⟩
  let fgs := ((List.replicate (2 * N) 0).set 0 (Ft.t.getD 0 0)).set N 1
  let xgs := (((List.replicate N 0).set 0 (Gt.t.getD (1 * Gt.tN + g_) 0)).set 1
    (Gt.t.getD (2 * Gt.tN + g_) 0)).set 2 (Gt.t.getD (3 * Gt.tN + g_) 0)
  let L2 : linear := ⟨List.replicate N 0, List.replicate N 0⟩
  assign_att (fun l1 l2 fgs2 xgs2 px2 cfg2 =>
      guess F G Ft Gt N (4 * N) l1 l2 fgs2 xgs2 px2 cfg2)
    F G Ft Gt N L1 L2 0 g_ fgs xgs 0 cfg xymc

/-- One full root attempt: the seeds of `tle_att` fed to the whole of
`assignF`, i.e. all three xymc attempts. -/
def tle_root (F G : List ℕ) (Ft Gt : triplicate) (N : ℕ) (g_ cfg : ℕ) : Bool :=
  let L1 : linear := ⟨(List.replicate N 0).set (Ft.t.getD 0 0) (Gt.t.getD g_ 0),
                      (List.replicate N 0).set (Gt.t.getD g_ 0) (Ft.t.getD 0 0)⟩
  let fgs := ((List.replicate (2 * N) 0).set 0 (Ft.t.getD 0 0)).set N 1
  let xgs := (((List.replicate N 0).set 0 (Gt.t.getD (1 * Gt.tN + g_) 0)).set 1
    (Gt.t.getD (2 * Gt.tN + g_) 0)).set 2 (Gt.t.getD (3 * Gt.tN + g_) 0)
  let L2 : linear := ⟨List.replicate N 0, List.replicate N 0⟩
  assign_all (fun l1 l2 fgs2 xgs2 px2 cfg2 =>
      guess F G Ft Gt N (4 * N) l1 l2 fgs2 xgs2 px2 cfg2)
    F G Ft Gt N L1 L2 0 g_ fgs xgs 0 cfg

/-- `test_triplicate_linear_equivalence` (lines 608-661): for each root
pairing of row 0 of T_F with a row g of T_G, try both configuration
classes. -/
def tle_loop (F G : List ℕ) (Ft Gt : triplicate) (N : ℕ) : ℕ → ℕ → Bool
  | 0, _ => false
  | k + 1, g_ =>
    if Gt.tN ≤ g_ then false
    else if tle_root F G Ft Gt N g_ 1 then true
    else if tle_root F G Ft Gt N g_ 2 then true
    else tle_loop F G Ft Gt N k (g_ + 1)

def test_triplicate_linear_equivalence (F G : List ℕ) (Ft Gt : triplicate)
    (N : ℕ) : Bool :=
  tle_loop F G Ft Gt N Gt.tN 0

/-- `check_lin_eq_2x_uniform_3to1` (lines 680-708) for two tables of the
same dimension (the C rejects differing dimensions up front). -/
def check_lin_eq_2x_uniform_3to1 (dim : ℕ) (F G : List ℕ) : Bool :=
  match is_canonical_triplicate_internal dim F with
  | none => false
  | some Ft =>
    match is_canonical_triplicate_internal dim G with
    | none => false
    | some Gt => test_triplicate_linear_equivalence F G Ft Gt (2 ^ dim)

/-- A canonical triplicate table of dimension 4: the five input triples
(1,6,7), (2,12,14), (3,10,9), (4,11,15), (5,13,8) map to the five distinct
nonzero outputs 1, 2, 4, 5, 6.  These outputs span only the 3-dimensional
subspace {0,...,7} of GF(2^4). -/
def F16 : List ℕ := [0, 1, 2, 4, 5, 6, 1, 1, 6, 4, 4, 5, 2, 6, 2, 5]

/-- The triple table the canonical-triplicate check builds for `F16`:
row q of column j holds output, then the three preimages, of the j-th
triple; `ol` sends each output to its row index + 1. -/
def Ft16 : triplicate :=
  ⟨5, [1, 2, 4, 5, 6, 1, 2, 3, 4, 5, 6, 12, 10, 11, 13, 7, 14, 9, 15, 8],
   [0, 1, 2, 0, 3, 4, 5, 0, 0, 0, 0, 0, 0, 0, 0, 0]⟩

theorem is_canonical_F16 : is_canonical_triplicate_internal 4 F16 = some Ft16 := rfl

theorem ict_F16_isSome : (is_canonical_triplicate_internal 4 F16).isSome = true := by
  rw [is_canonical_F16]; rfl

theorem tle_root_eq_atts (F G : List ℕ) (Ft Gt : triplicate) (N g_ cfg : ℕ) :
    tle_root F G Ft Gt N g_ cfg =
      (tle_att F G Ft Gt N g_ cfg 0 ||
       (tle_att F G Ft Gt N g_ cfg 1 || tle_att F G Ft Gt N g_ cfg 2)) := rfl

set_option maxRecDepth 100000 in
theorem tle_att_g0_c1_x0 : tle_att F16 F16 Ft16 Ft16 16 0 1 0 = false := by decide

set_option maxRecDepth 100000 in
theorem tle_att_g0_c1_x1 : tle_att F16 F16 Ft16 Ft16 16 0 1 1 = false := by decide

set_option maxRecDepth 100000 in
theorem tle_att_g0_c1_x2 : tle_att F16 F16 Ft16 Ft16 16 0 1 2 = false := by decide

set_option maxRecDepth 100000 in
theorem tle_att_g0_c2_x0 : tle_att F16 F16 Ft16 Ft16 16 0 2 0 = false := by decide

set_option maxRecDepth 100000 in
theorem tle_att_g0_c2_x1 : tle_att F16 F16 Ft16 Ft16 16 0 2 1 = false := by decide

set_option maxRecDepth 100000 in
theorem tle_att_g0_c2_x2 : tle_att F16 F16 Ft16 Ft16 16 0 2 2 = false := by decide

set_option maxRecDepth 100000 in
theorem tle_att_g1_c1_x0 : tle_att F16 F16 Ft16 Ft16 16 1 1 0 = false := by decide

set_option maxRecDepth 100000 in
theorem tle_att_g1_c1_x1 : tle_att F16 F16 Ft16 Ft16 16 1 1 1 = false := by decide

set_option maxRecDepth 100000 in
theorem tle_att_g1_c1_x2 : tle_att F16 F16 Ft16 Ft16 16 1 1 2 = false := by decide

set_option maxRecDepth 100000 in
theorem tle_att_g1_c2_x0 : tle_att F16 F16 Ft16 Ft16 16 1 2 0 = false := by decide

set_option maxRecDepth 100000 in
theorem tle_att_g1_c2_x1 : tle_att F16 F16 Ft16 Ft16 16 1 2 1 = false := by decide

set_option maxRecDepth 100000 in
theorem tle_att_g1_c2_x2 : tle_att F16 F16 Ft16 Ft16 16 1 2 2 = false := by decide

set_option maxRecDepth 100000 in
theorem tle_att_g2_c1_x0 : tle_att F16 F16 Ft16 Ft16 16 2 1 0 = false := by decide

set_option maxRecDepth 100000 in
theorem tle_att_g2_c1_x1 : tle_att F16 F16 Ft16 Ft16 16 2 1 1 = false := by decide

set_option maxRecDepth 100000 in
theorem tle_att_g2_c1_x2 : tle_att F16 F16 Ft16 Ft16 16 2 1 2 = false := by decide

set_option maxRecDepth 100000 in
theorem tle_att_g2_c2_x0 : tle_att F16 F16 Ft16 Ft16 16 2 2 0 = false := by decide

set_option maxRecDepth 100000 in
theorem tle_att_g2_c2_x1 : tle_att F16 F16 Ft16 Ft16 16 2 2 1 = false := by decide

set_option maxRecDepth 100000 in
theorem tle_att_g2_c2_x2 : tle_att F16 F16 Ft16 Ft16 16 2 2 2 = false := by decide

set_option maxRecDepth 100000 in
theorem tle_att_g3_c1_x0 : tle_att F16 F16 Ft16 Ft16 16 3 1 0 = false := by decide

set_option maxRecDepth 100000 in
theorem tle_att_g3_c1_x1 : tle_att F16 F16 Ft16 Ft16 16 3 1 1 = false := by decide

set_option maxRecDepth 100000 in
theorem tle_att_g3_c1_x2 : tle_att F16 F16 Ft16 Ft16 16 3 1 2 = false := by decide

set_option maxRecDepth 100000 in
theorem tle_att_g3_c2_x0 : tle_att F16 F16 Ft16 Ft16 16 3 2 0 = false := by decide

set_option maxRecDepth 100000 in
theorem tle_att_g3_c2_x1 : tle_att F16 F16 Ft16 Ft16 16 3 2 1 = false := by decide

set_option maxRecDepth 100000 in
theorem tle_att_g3_c2_x2 : tle_att F16 F16 Ft16 Ft16 16 3 2 2 = false := by decide

set_option maxRecDepth 100000 in
theorem tle_att_g4_c1_x0 : tle_att F16 F16 Ft16 Ft16 16 4 1 0 = false := by decide

set_option maxRecDepth 100000 in
theorem tle_att_g4_c1_x1 : tle_att F16 F16 Ft16 Ft16 16 4 1 1 = false := by decide

set_option maxRecDepth 100000 in
theorem tle_att_g4_c1_x2 : tle_att F16 F16 Ft16 Ft16 16 4 1 2 = false := by decide

set_option maxRecDepth 100000 in
theorem tle_att_g4_c2_x0 : tle_att F16 F16 Ft16 Ft16 16 4 2 0 = false := by decide

set_option maxRecDepth 100000 in
theorem tle_att_g4_c2_x1 : tle_att F16 F16 Ft16 Ft16 16 4 2 1 = false := by decide

set_option maxRecDepth 100000 in
theorem tle_att_g4_c2_x2 : tle_att F16 F16 Ft16 Ft16 16 4 2 2 = false := by decide

theorem tle_root_g0_c1 : tle_root F16 F16 Ft16 Ft16 16 0 1 = false := by
  rw [tle_root_eq_atts, tle_att_g0_c1_x0, tle_att_g0_c1_x1, tle_att_g0_c1_x2]
  rfl

theorem tle_root_g0_c2 : tle_root F16 F16 Ft16 Ft16 16 0 2 = false := by
  rw [tle_root_eq_atts, tle_att_g0_c2_x0, tle_att_g0_c2_x1, tle_att_g0_c2_x2]
  rfl

theorem tle_root_g1_c1 : tle_root F16 F16 Ft16 Ft16 16 1 1 = false := by
  rw [tle_root_eq_atts, tle_att_g1_c1_x0, tle_att_g1_c1_x1, tle_att_g1_c1_x2]
  rfl

theorem tle_root_g1_c2 : tle_root F16 F16 Ft16 Ft16 16 1 2 = false := by
  rw [tle_root_eq_atts, tle_att_g1_c2_x0, tle_att_g1_c2_x1, tle_att_g1_c2_x2]
  rfl

theorem tle_root_g2_c1 : tle_root F16 F16 Ft16 Ft16 16 2 1 = false := by
  rw [tle_root_eq_atts, tle_att_g2_c1_x0, tle_att_g2_c1_x1, tle_att_g2_c1_x2]
  rfl

theorem tle_root_g2_c2 : tle_root F16 F16 Ft16 Ft16 16 2 2 = false := by
  rw [tle_root_eq_atts, tle_att_g2_c2_x0, tle_att_g2_c2_x1, tle_att_g2_c2_x2]
  rfl

theorem tle_root_g3_c1 : tle_root F16 F16 Ft16 Ft16 16 3 1 = false := by
  rw [tle_root_eq_atts, tle_att_g3_c1_x0, tle_att_g3_c1_x1, tle_att_g3_c1_x2]
  rfl

theorem tle_root_g3_c2 : tle_root F16 F16 Ft16 Ft16 16 3 2 = false := by
  rw [tle_root_eq_atts, tle_att_g3_c2_x0, tle_att_g3_c2_x1, tle_att_g3_c2_x2]
  rfl

theorem tle_root_g4_c1 : tle_root F16 F16 Ft16 Ft16 16 4 1 = false := by
  rw [tle_root_eq_atts, tle_att_g4_c1_x0, tle_att_g4_c1_x1, tle_att_g4_c1_x2]
  rfl

theorem tle_root_g4_c2 : tle_root F16 F16 Ft16 Ft16 16 4 2 = false := by
  rw [tle_root_eq_atts, tle_att_g4_c2_x0, tle_att_g4_c2_x1, tle_att_g4_c2_x2]
  rfl

theorem tle_loop_step (F G : List ℕ) (Ft Gt : triplicate) (N k g_ : ℕ)
    (hg : ¬ Gt.tN ≤ g_)
    (h1 : tle_root F G Ft Gt N g_ 1 = false)
    (h2 : tle_root F G Ft Gt N g_ 2 = false) :
    tle_loop F G Ft Gt N (k + 1) g_ = tle_loop F G Ft Gt N k (g_ + 1) := by
  simp only [tle_loop, hg, h1, h2, Bool.false_eq_true, if_false]

theorem check_lin_eq_F16_false : check_lin_eq_2x_uniform_3to1 4 F16 F16 = false := by
  have s0 : tle_loop F16 F16 Ft16 Ft16 16 5 0 = tle_loop F16 F16 Ft16 Ft16 16 4 1 :=
    tle_loop_step F16 F16 Ft16 Ft16 16 4 0 (by decide) tle_root_g0_c1 tle_root_g0_c2
  have s1 : tle_loop F16 F16 Ft16 Ft16 16 4 1 = tle_loop F16 F16 Ft16 Ft16 16 3 2 :=
    tle_loop_step F16 F16 Ft16 Ft16 16 3 1 (by decide) tle_root_g1_c1 tle_root_g1_c2
  have s2 : tle_loop F16 F16 Ft16 Ft16 16 3 2 = tle_loop F16 F16 Ft16 Ft16 16 2 3 :=
    tle_loop_step F16 F16 Ft16 Ft16 16 2 2 (by decide) tle_root_g2_c1 tle_root_g2_c2
  have s3 : tle_loop F16 F16 Ft16 Ft16 16 2 3 = tle_loop F16 F16 Ft16 Ft16 16 1 4 :=
    tle_loop_step F16 F16 Ft16 Ft16 16 1 3 (by decide) tle_root_g3_c1 tle_root_g3_c2
  have s4 : tle_loop F16 F16 Ft16 Ft16 16 1 4 = tle_loop F16 F16 Ft16 Ft16 16 0 5 :=
    tle_loop_step F16 F16 Ft16 Ft16 16 0 4 (by decide) tle_root_g4_c1 tle_root_g4_c2
  have s5 : tle_loop F16 F16 Ft16 Ft16 16 0 5 = false := rfl
  have h0 : check_lin_eq_2x_uniform_3to1 4 F16 F16 = tle_loop F16 F16 Ft16 Ft16 16 5 0 := by
    unfold check_lin_eq_2x_uniform_3to1
    rw [is_canonical_F16]
    rfl
  rw [h0, s0, s1, s2, s3, s4, s5]

/-- C3 (code_bug): `F16` passes the canonical-triplicate check, yet the
equivalence search applied to the pair (F16, F16) returns false.  The
search can only succeed once all N - 1 guess slots are filled with
distinct nonzero L1 facts, and when the outputs of the table span a proper
subspace the slots can never all fill, so every branch exhausts. -/
theorem check_lin_eq_reflexivity_failure :
    (is_canonical_triplicate_internal 4 F16).isSome = true ∧
    check_lin_eq_2x_uniform_3to1 4 F16 F16 = false :=
  ⟨ict_F16_isSome, check_lin_eq_F16_false⟩

/-- C1 (code_bug): the pair (F16, F16) of canonical triplicates of even
dimension 4 is linearly equivalent — the identity maps are linear
bijections of GF(2^4) with L1(F(L2(x))) = F(x) — yet
`check_lin_eq_2x_uniform_3to1` returns false on it. -/
theorem check_lin_eq_misses_equivalent_pair :
    (is_canonical_triplicate_internal 4 F16).isSome = true ∧
    check_lin_eq_2x_uniform_3to1 4 F16 F16 = false ∧
    (∃ L1 L2 : ℕ → ℕ,
      (∀ x, x < 16 → ∀ y, y < 16 → L1 (x ^^^ y) = L1 x ^^^ L1 y) ∧
      (∀ x, x < 16 → ∀ y, y < 16 → L2 (x ^^^ y) = L2 x ^^^ L2 y) ∧
      (∀ x, x < 16 → L1 x < 16) ∧ (∀ x, x < 16 → L2 x < 16) ∧
      (∀ y, y < 16 → ∃ x, x < 16 ∧ L1 x = y) ∧
      (∀ y, y < 16 → ∃ x, x < 16 ∧ L2 x = y) ∧
      (∀ x, x < 16 → ∀ y, y < 16 → L1 x = L1 y → x = y) ∧
      (∀ x, x < 16 → ∀ y, y < 16 → L2 x = L2 y → x = y) ∧
      (∀ x, x < 16 → L1 (F16.getD (L2 x) 0) = F16.getD x 0)) :=
  ⟨ict_F16_isSome, check_lin_eq_F16_false,
    fun x => x, fun x => x,
    fun x _ y _ => rfl, fun x _ y _ => rfl,
    fun x hx => hx, fun x hx => hx,
    fun y hy => ⟨y, hy, rfl⟩, fun y hy => ⟨y, hy, rfl⟩,
    fun x _ y _ h => h, fun x _ y _ h => h,
    fun x _ => rfl⟩

/-- C4 (code_bug): `compute_k_to_1` accepts the truth table [1, 0] of
dimension 1 and returns k = 1 even though F(0) = 1 ≠ 0: the code only
enforces that the output 0 is attained exactly once (`freq[0] == 1`), not
that it is attained at the input 0, contradicting the contract stated in its
own comments and in the specification. -/
theorem compute_k_to_1_no_zero_fix_check :
    compute_k_to_1 1 ttSwap = 1 ∧ ttSwap 0 ≠ 0 := by
  constructor
  · rfl
  · simp [ttSwap]

/-- C2 (counterexample): the primitive polynomial actually used for
dimension 6 is 91 = x^6+x^4+x^3+x+1, not the spec's 67 = x^6+x+1. -/
theorem get_primitive_polynomial_six :
    get_primitive_polynomial 6 = 91 ∧ get_primitive_polynomial 6 ≠ 67 := by
  constructor <;> decide

/-- C2 (corrected): for every dimension n in [2, 20] the table entry is a
bitmask whose highest set bit is bit n (so it encodes a degree-n polynomial),
and the concrete values at the dimensions singled out by the claim are
91, 1135, 4331, 16553 and 1050355 — not the spec's 67, 1033, 4179, 17475 and
1048585. -/
theorem get_primitive_polynomial_values (n : ℕ) (h2 : 2 ≤ n) (h20 : n ≤ 20) :
    (2 ^ n ≤ get_primitive_polynomial n ∧ get_primitive_polynomial n < 2 ^ (n + 1)) ∧
    get_primitive_polynomial 6 = 91 ∧ get_primitive_polynomial 10 = 1135 ∧
    get_primitive_polynomial 12 = 4331 ∧ get_primitive_polynomial 14 = 16553 ∧
    get_primitive_polynomial 20 = 1050355 := by
  have key : ∀ m, m < 21 → 2 ≤ m →
      2 ^ m ≤ get_primitive_polynomial m ∧ get_primitive_polynomial m < 2 ^ (m + 1) := by
    decide
  exact ⟨key n (by omega) h2, by decide, by decide, by decide, by decide, by decide⟩

/-- C2 witness: instantiation of `get_primitive_polynomial_values` at n = 6. -/
theorem get_primitive_polynomial_values_witness :
    (2 ^ 6 ≤ get_primitive_polynomial 6 ∧ get_primitive_polynomial 6 < 2 ^ 7) ∧
    get_primitive_polynomial 6 = 91 ∧ get_primitive_polynomial 10 = 1135 ∧
    get_primitive_polynomial 12 = 4331 ∧ get_primitive_polynomial 14 = 16553 ∧
    get_primitive_polynomial 20 = 1050355 :=
  get_primitive_polynomial_values 6 (by decide) (by decide)

end APN
